import Mathlib

/-!
# A shallow embedding of the `journey` archive format

`journey.hpp` implements an append-only, header-less journaling archive.
This file embeds the core of the library:

* a file is a `List Nat` of bytes; the filesystem maps paths to files;
* `entryBytes`/`appendBytes` embed `journey::append`'s encoder
  (alignment paddings, name, NUL, payload, 40-byte trailer);
* `loadLoop`/`Journey.load` embed the backward scan of `journey::load`,
  with an explicit fuel parameter standing for the number of loop
  iterations the C++ `while` performs (`none` = the loop has not
  finished within `fuel` iterations);
* `Journey.read`, `Journey.init`, `Journey.append`, `Journey.compact`
  embed the remaining archive operations.

Stream failures (reads or seeks outside the file) make the C++ stream
unusable; the loop then exits and `load` reports failure.  The embedding
returns the table of contents built so far together with the `false`
flag at the first such failure.
-/

set_option maxRecDepth 10000

/-- Bytes of a 64-bit value, least significant byte first, as produced by
`ofs.write((const char*)&x, 8)` on a little-endian host. -/
def le64 (x : Nat) : List Nat :=
  [x % 256, x / 256 % 256, x / 256 ^ 2 % 256, x / 256 ^ 3 % 256,
   x / 256 ^ 4 % 256, x / 256 ^ 5 % 256, x / 256 ^ 6 % 256, x / 256 ^ 7 % 256]

/-- Value of (up to) 8 bytes read least-significant-first, as read by
`ifs.read((char*)&x, 8)` on a little-endian host. -/
def decodeLe64 (bs : List Nat) : Nat :=
  bs.getD 0 0 + bs.getD 1 0 * 256 + bs.getD 2 0 * 256 ^ 2 + bs.getD 3 0 * 256 ^ 3 +
    bs.getD 4 0 * 256 ^ 4 + bs.getD 5 0 * 256 ^ 5 + bs.getD 6 0 * 256 ^ 6 +
    bs.getD 7 0 * 256 ^ 7

/-- Padding length to the next 8-aligned offset: the source computes
`(((p + 8) & ~7) - p) % 8`, and `(p + 8) & ~7` is `(p + 8) / 8 * 8`. -/
def padLen (p : Nat) : Nat := ((p + 8) / 8 * 8 - p) % 8

/-- `journey::magic_right_endian`, the bytes `journey1`. -/
def magicRightEndian : Nat := 0x3179656E72756F6A

/-- `journey::magic_wrong_endian`, the byte-swapped sentinel. -/
def magicWrongEndian : Nat := 0x6A6F75726E657931

/-- Reinterpreting a `uint64_t` value as `int64_t`, as in the source's
`int64_t(filelen)`. -/
def toInt64 (x : Nat) : Int := if x < 2 ^ 63 then (x : Int) else (x : Int) - 2 ^ 64

/-- `k` zero bytes (`char buf[8] = {0}` padding writes). -/
def zeros (k : Nat) : List Nat := List.replicate k 0

/-- The bytes of `f` at positions `[p, p + n)` (short when the file ends). -/
def chunkAt (f : List Nat) (p n : Nat) : List Nat := (f.drop p).take n

/-- `journey::entry`: a table-of-contents record. -/
structure Entry where
  offset : Nat
  size : Nat
  stamp : Nat
deriving DecidableEq, Repr

/-- The in-memory table of contents, keyed by file name (byte string). -/
abbrev Toc := List (List Nat × Entry)

/-- First entry stored under name `n` (the `std::map` lookup `toc.find`). -/
def findName (n : List Nat) : Toc → Option Entry
  | [] => none
  | (m, e) :: r => if m = n then some e else findName n r

/-- The filesystem: contents of the file at each path.  A path never
written holds the empty byte string. -/
abbrev Fs := String → List Nat

/-- Replace the contents of the file at path `p`. -/
def setFs (fs : Fs) (p : String) (f : List Nat) : Fs :=
  fun q => if q = p then f else fs q

/-- One record to be appended: name bytes, payload bytes, timestamp. -/
structure Triple where
  name : List Nat
  data : List Nat
  stamp : Nat
deriving DecidableEq, Repr

/-- The bytes `journey::append` emits for one entry when the file already
holds `pos0` bytes: `pad_1`, name, NUL, `pad_2`, payload, `pad_3`, then
the trailer `stamp, namelen, datalen, filelen, magic` as five 64-bit
fields.  `filelen` is taken just before the trailer is written, so it
counts everything from the entry start up to (and not including) the
trailer. -/
def entryBytes (pos0 : Nat) (t : Triple) : List Nat :=
  let pad1 := padLen pos0
  let a2 := pos0 + pad1 + t.name.length + 1
  let pad2 := padLen a2
  let a4 := a2 + pad2 + t.data.length
  let pad3 := padLen a4
  let filelen := a4 + pad3 - pos0
  zeros pad1 ++ t.name ++ [0] ++ zeros pad2 ++ t.data ++ zeros pad3 ++
    le64 t.stamp ++ le64 t.name.length ++ le64 t.data.length ++
    le64 filelen ++ le64 magicRightEndian

/-- Byte length of the serialized entry. -/
def entryLen (pos0 : Nat) (t : Triple) : Nat :=
  let pad1 := padLen pos0
  let a2 := pos0 + pad1 + t.name.length + 1
  let pad2 := padLen a2
  let a4 := a2 + pad2 + t.data.length
  let pad3 := padLen a4
  a4 + pad3 - pos0 + 40

/-- Absolute offset of the payload of an entry appended at `pos0`: past
`pad_1`, the name, the NUL byte and `pad_2`.  This is the position
`journey::load` records in the table of contents. -/
def payloadOff (pos0 : Nat) (t : Triple) : Nat :=
  let a2 := pos0 + padLen pos0 + t.name.length + 1
  a2 + padLen a2

/-- Appending one record to a file (the file-content effect of
`journey::append`, which opens the journal in `app|ate` mode). -/
def appendBytes (f : List Nat) (t : Triple) : List Nat :=
  f ++ entryBytes f.length t

/-- A file built by a sequence of appends on top of `f`. -/
def multiAppendFrom (f : List Nat) (ts : List Triple) : List Nat :=
  ts.foldl appendBytes f

/-- A file built by a sequence of appends starting from an empty file. -/
def multiAppend (ts : List Triple) : List Nat := multiAppendFrom [] ts

/-- The archive object: the journal path and the table of contents. -/
structure Journey where
  journal : String
  toc : Toc
deriving DecidableEq, Repr

/-- `journey::init`: `*this = journey()` resets the object first; an
empty path then reports failure (the reset persists), a non-empty path
is adopted. -/
def Journey.init (_j : Journey) (file : String) : Journey × Bool :=
  if file = "" then (⟨"", []⟩, false) else (⟨file, []⟩, true)

/-- One backward scan of `journey::load`, resumed at stream position
`pos` with the table of contents and entry counter built so far.  Each
recursive call is one iteration of the C++ `while` loop; `fuel` bounds
the number of iterations (`none`: still looping after `fuel` rounds).
A read or skip that would run past the end of the file, or a seek to a
negative position, makes the stream fail: the loop exits and the final
`ifs.good() && count > 0` is `false`. -/
def loadLoop (f : List Nat) (beg e : Nat) :
    Nat → Int → Toc → Nat → Option (Toc × Bool)
  | 0, _, _, _ => none
  | fuel + 1, pos, toc, count =>
    if pos < 40 then some (toc, 0 < count)
    else if (f.length : Int) < pos then some (toc, false)
    else
      let base := (pos - 40).toNat
      let stamp := decodeLe64 (chunkAt f base 8)
      let namelen := decodeLe64 (chunkAt f (base + 8) 8)
      let datalen := decodeLe64 (chunkAt f (base + 16) 8)
      let filelen := decodeLe64 (chunkAt f (base + 24) 8)
      let magic := decodeLe64 (chunkAt f (base + 32) 8)
      if magic ≠ magicRightEndian ∧ magic ≠ magicWrongEndian then some (toc, 0 < count)
      else
        let start := pos - 40 - toInt64 filelen
        if start < 0 then some (toc, false)
        else
          let p1 := start + (padLen start.toNat : Int)
          if (f.length : Int) < p1 then some (toc, false)
          else
            let fname := chunkAt f p1.toNat namelen
            let p2 := p1 + (namelen : Int)
            if (f.length : Int) < p2 then some (toc, false)
            else
              let p3 := p2 + 1
              if (f.length : Int) < p3 then some (toc, false)
              else
                let p4 := p3 + (padLen p3.toNat : Int)
                if (f.length : Int) < p4 then some (toc, false)
                else
                  let toc' :=
                    if beg ≤ stamp ∧ stamp ≤ e ∧ (findName fname toc).isNone then
                      (fname, ⟨p4.toNat, datalen, stamp⟩) :: toc
                    else toc
                  let p5 := p4 + (datalen : Int)
                  if (f.length : Int) < p5 then some (toc', false)
                  else
                    let p6 := p5 + (padLen p5.toNat : Int)
                    if (f.length : Int) < p6 then some (toc', false)
                    else
                      let p7 := p6 - toInt64 filelen
                      if p7 < 0 then some (toc', false)
                      else loadLoop f beg e fuel p7 toc' (count + 1)

/-- `journey::load`: re-`init` with the saved path (clearing the toc),
reject reversed windows, then scan the journal backwards from its end.
The stream opens at end-of-file (`ios::ate`), so scanning starts at the
file length. -/
def Journey.load (j : Journey) (fs : Fs) (beg e fuel : Nat) :
    Option (Journey × Bool) :=
  if beg > e then some (⟨j.journal, []⟩, false)
  else
    match loadLoop (fs j.journal) beg e fuel ((fs j.journal).length : Int) [] 0 with
    | none => none
    | some (toc, ok) => some (⟨j.journal, toc⟩, ok)

/-- `journey::read`: look the name up in the toc, then return `size`
bytes of the journal starting at `offset`.  A short read fails; a
zero-byte read succeeds even at end-of-file. -/
def Journey.read (j : Journey) (fs : Fs) (name : List Nat) : Option (List Nat) :=
  match findName name j.toc with
  | none => none
  | some ent =>
    let f := fs j.journal
    if ent.size = 0 ∨ ent.offset + ent.size ≤ f.length then
      some (chunkAt f ent.offset ent.size)
    else none

/-- `journey::append`: requires a non-empty journal path, a non-null
payload pointer and a non-empty name, then appends one serialized entry
to the journal file. -/
def Journey.append (j : Journey) (fs : Fs) (filename : List Nat)
    (ptr : Option (List Nat)) (stamp : Nat) : Fs × Bool :=
  match ptr with
  | none => (fs, false)
  | some data =>
    if j.journal ≠ "" ∧ filename ≠ [] then
      (setFs fs j.journal (appendBytes (fs j.journal) ⟨filename, data, stamp⟩), true)
    else (fs, false)

/-- Byte-wise order on names, as `std::string`'s `operator<`. -/
def nameLtB : List Nat → List Nat → Bool
  | [], [] => false
  | [], _ :: _ => true
  | _ :: _, [] => false
  | a :: as, b :: bs => if a < b then true else if b < a then false else nameLtB as bs

/-- The toc in `std::map` iteration order (ascending by name). -/
def sortToc (toc : Toc) : Toc :=
  List.insertionSort (fun x y => nameLtB x.1 y.1 = true) toc

/-- The loop of `journey::compact`: for each toc record, read the payload
from the source archive and append it under the same name and stamp to
the new journal; stop with failure as soon as a read or append fails. -/
def compactLoop (j j2 : Journey) : Fs → List (List Nat × Entry) → Fs × Bool
  | fs, [] => (fs, true)
  | fs, (name, info) :: rest =>
    match j.read fs name with
    | none => (fs, false)
    | some data =>
      let r := j2.append fs name (some data) info.stamp
      if r.2 then compactLoop j j2 r.1 rest else (r.1, false)

/-- `journey::compact`: fails on an empty toc, otherwise copies every toc
record into a fresh archive at `newFile` (the constructor `journey j2(f)`
calls `init`, which leaves the default empty state when `f` is empty, and
`⟨newFile, []⟩` in either case). -/
def Journey.compact (j : Journey) (fs : Fs) (newFile : String) : Fs × Bool :=
  if j.toc = [] then (fs, false)
  else compactLoop j ⟨newFile, []⟩ fs (sortToc j.toc)

/-! ## The scan model

`insertStep`/`scanToc` describe what one backward-scan iteration and a
whole scan over a run of appended entries do to the table of contents;
`winner` names the record `load` keeps for a given name: the newest
occurrence whose stamp lies in the window. -/

/-- Effect of one scan iteration on the toc, for a well-formed entry
appended at `pos0`. -/
def insertStep (beg e pos0 : Nat) (t : Triple) (toc : Toc) : Toc :=
  if beg ≤ t.stamp ∧ t.stamp ≤ e ∧ (findName t.name toc).isNone then
    (t.name, ⟨payloadOff pos0 t, t.data.length, t.stamp⟩) :: toc
  else toc

/-- Effect of scanning a run of entries appended in order starting at
`pos0` (the scan visits them from the last to the first). -/
def scanToc (beg e : Nat) : Nat → List Triple → Toc → Toc
  | _, [], toc => toc
  | pos0, t :: rest, toc =>
    insertStep beg e pos0 t (scanToc beg e (pos0 + entryLen pos0 t) rest toc)

/-- The record kept for name `n`: the last (newest) occurrence in `ts`
whose stamp lies in `[beg, e]`, together with the offset at which its
entry starts. -/
def winner (beg e : Nat) (n : List Nat) : Nat → List Triple → Option (Triple × Nat)
  | _, [] => none
  | pos0, t :: rest =>
    match winner beg e n (pos0 + entryLen pos0 t) rest with
    | some r => some r
    | none =>
      if t.name = n ∧ beg ≤ t.stamp ∧ t.stamp ≤ e then some (t, pos0) else none

/-! ## Basic lemmas -/

@[simp] theorem length_le64 (x : Nat) : (le64 x).length = 8 := rfl

@[simp] theorem length_zeros (k : Nat) : (zeros k).length = k :=
  List.length_replicate k 0

theorem decodeLe64_le64 (x : Nat) : decodeLe64 (le64 x) = x % 2 ^ 64 := by
  simp [le64, decodeLe64]
  omega

theorem decodeLe64_le64_of_lt {x : Nat} (h : x < 2 ^ 64) :
    decodeLe64 (le64 x) = x := by
  rw [decodeLe64_le64, Nat.mod_eq_of_lt h]

theorem padLen_lt (p : Nat) : padLen p < 8 := by unfold padLen; omega

theorem add_padLen_emod (p : Nat) : (p + padLen p) % 8 = 0 := by
  unfold padLen; omega

theorem padLen_congr {p q : Nat} (h : p % 8 = q % 8) : padLen p = padLen q := by
  unfold padLen; omega

theorem chunkAt_of_decomp {f x m y : List Nat} {p n : Nat}
    (hf : f = x ++ (m ++ y)) (hp : p = x.length) (hn : n = m.length) :
    chunkAt f p n = m := by
  subst hf hp hn
  unfold chunkAt
  rw [List.drop_left, List.take_left]

theorem chunkAt_append_left {x y : List Nat} {p n : Nat}
    (h : p + n ≤ x.length) : chunkAt (x ++ y) p n = chunkAt x p n := by
  unfold chunkAt
  rw [List.drop_append_of_le_length (by omega),
    List.take_append_of_le_length (by simp; omega)]

theorem length_entryBytes (pos0 : Nat) (t : Triple) :
    (entryBytes pos0 t).length = entryLen pos0 t := by
  simp [entryBytes, entryLen]
  omega

theorem entryLen_ge (pos0 : Nat) (t : Triple) : 41 ≤ entryLen pos0 t := by
  simp only [entryLen]
  omega

theorem pos_add_entryLen_emod (pos0 : Nat) (t : Triple) :
    (pos0 + entryLen pos0 t) % 8 = 0 := by
  have h := add_padLen_emod (pos0 + padLen pos0 + t.name.length + 1 +
    padLen (pos0 + padLen pos0 + t.name.length + 1) + t.data.length)
  simp only [entryLen]
  omega

@[simp] theorem length_appendBytes (f : List Nat) (t : Triple) :
    (appendBytes f t).length = f.length + entryLen f.length t := by
  simp [appendBytes, length_entryBytes]

theorem length_appendBytes_emod (f : List Nat) (t : Triple) :
    (appendBytes f t).length % 8 = 0 := by
  rw [length_appendBytes]
  exact pos_add_entryLen_emod f.length t

/-! ## One scan iteration over a well-formed entry

`loadLoop_step` is the central computation: scanning a file
`u ++ entryBytes u.length t ++ w` from the position just after the entry
reads the trailer, walks the entry, updates the toc as `insertStep` and
resumes just after `u`. -/

theorem loadLoop_step (u w : List Nat) (t : Triple) (beg e : Nat)
    (toc : Toc) (count fuel : Nat)
    (hlen : (u ++ entryBytes u.length t ++ w).length < 2 ^ 63)
    (hst : t.stamp < 2 ^ 64) :
    loadLoop (u ++ entryBytes u.length t ++ w) beg e (fuel + 1)
        ((u.length + entryLen u.length t : Nat) : Int) toc count
      = loadLoop (u ++ entryBytes u.length t ++ w) beg e fuel (u.length : Int)
          (insertStep beg e u.length t toc) (count + 1) := by
  have hEL : entryLen u.length t = u.length + padLen u.length + t.name.length + 1 + padLen (u.length + padLen u.length + t.name.length + 1) + t.data.length + padLen (u.length + padLen u.length + t.name.length + 1 + padLen (u.length + padLen u.length + t.name.length + 1) + t.data.length) - u.length + 40 := by
    simp only [entryLen]
    try omega
  have hfl : (u ++ entryBytes u.length t ++ w).length
      = u.length + entryLen u.length t + w.length := by
    simp [length_entryBytes]
    try omega
  have hcS : chunkAt (u ++ entryBytes u.length t ++ w)
      (u.length + padLen u.length + t.name.length + 1 + padLen (u.length + padLen u.length + t.name.length + 1) + t.data.length + padLen (u.length + padLen u.length + t.name.length + 1 + padLen (u.length + padLen u.length + t.name.length + 1) + t.data.length)) (8)
      = le64 t.stamp := by
    refine chunkAt_of_decomp (x := u ++ zeros (padLen u.length) ++ t.name ++ [0] ++ zeros (padLen (u.length + padLen u.length + t.name.length + 1)) ++ t.data ++ zeros (padLen (u.length + padLen u.length + t.name.length + 1 + padLen (u.length + padLen u.length + t.name.length + 1) + t.data.length)))
      (m := le64 t.stamp) (y := le64 t.name.length ++ le64 t.data.length ++ le64 (u.length + padLen u.length + t.name.length + 1 + padLen (u.length + padLen u.length + t.name.length + 1) + t.data.length + padLen (u.length + padLen u.length + t.name.length + 1 + padLen (u.length + padLen u.length + t.name.length + 1) + t.data.length) - u.length) ++ le64 magicRightEndian ++ w) ?_ ?_ ?_
    · simp only [entryBytes, List.append_assoc]
    · simp
      try omega
    · simp
  have hcN : chunkAt (u ++ entryBytes u.length t ++ w)
      (u.length + padLen u.length + t.name.length + 1 + padLen (u.length + padLen u.length + t.name.length + 1) + t.data.length + padLen (u.length + padLen u.length + t.name.length + 1 + padLen (u.length + padLen u.length + t.name.length + 1) + t.data.length) + 8) (8)
      = le64 t.name.length := by
    refine chunkAt_of_decomp (x := u ++ zeros (padLen u.length) ++ t.name ++ [0] ++ zeros (padLen (u.length + padLen u.length + t.name.length + 1)) ++ t.data ++ zeros (padLen (u.length + padLen u.length + t.name.length + 1 + padLen (u.length + padLen u.length + t.name.length + 1) + t.data.length)) ++ le64 t.stamp)
      (m := le64 t.name.length) (y := le64 t.data.length ++ le64 (u.length + padLen u.length + t.name.length + 1 + padLen (u.length + padLen u.length + t.name.length + 1) + t.data.length + padLen (u.length + padLen u.length + t.name.length + 1 + padLen (u.length + padLen u.length + t.name.length + 1) + t.data.length) - u.length) ++ le64 magicRightEndian ++ w) ?_ ?_ ?_
    · simp only [entryBytes, List.append_assoc]
    · simp
      try omega
    · simp
  have hcD : chunkAt (u ++ entryBytes u.length t ++ w)
      (u.length + padLen u.length + t.name.length + 1 + padLen (u.length + padLen u.length + t.name.length + 1) + t.data.length + padLen (u.length + padLen u.length + t.name.length + 1 + padLen (u.length + padLen u.length + t.name.length + 1) + t.data.length) + 16) (8)
      = le64 t.data.length := by
    refine chunkAt_of_decomp (x := u ++ zeros (padLen u.length) ++ t.name ++ [0] ++ zeros (padLen (u.length + padLen u.length + t.name.length + 1)) ++ t.data ++ zeros (padLen (u.length + padLen u.length + t.name.length + 1 + padLen (u.length + padLen u.length + t.name.length + 1) + t.data.length)) ++ le64 t.stamp ++ le64 t.name.length)
      (m := le64 t.data.length) (y := le64 (u.length + padLen u.length + t.name.length + 1 + padLen (u.length + padLen u.length + t.name.length + 1) + t.data.length + padLen (u.length + padLen u.length + t.name.length + 1 + padLen (u.length + padLen u.length + t.name.length + 1) + t.data.length) - u.length) ++ le64 magicRightEndian ++ w) ?_ ?_ ?_
    · simp only [entryBytes, List.append_assoc]
    · simp
      try omega
    · simp
  have hcF : chunkAt (u ++ entryBytes u.length t ++ w)
      (u.length + padLen u.length + t.name.length + 1 + padLen (u.length + padLen u.length + t.name.length + 1) + t.data.length + padLen (u.length + padLen u.length + t.name.length + 1 + padLen (u.length + padLen u.length + t.name.length + 1) + t.data.length) + 24) (8)
      = le64 (u.length + padLen u.length + t.name.length + 1 + padLen (u.length + padLen u.length + t.name.length + 1) + t.data.length + padLen (u.length + padLen u.length + t.name.length + 1 + padLen (u.length + padLen u.length + t.name.length + 1) + t.data.length) - u.length) := by
    refine chunkAt_of_decomp (x := u ++ zeros (padLen u.length) ++ t.name ++ [0] ++ zeros (padLen (u.length + padLen u.length + t.name.length + 1)) ++ t.data ++ zeros (padLen (u.length + padLen u.length + t.name.length + 1 + padLen (u.length + padLen u.length + t.name.length + 1) + t.data.length)) ++ le64 t.stamp ++ le64 t.name.length ++ le64 t.data.length)
      (m := le64 (u.length + padLen u.length + t.name.length + 1 + padLen (u.length + padLen u.length + t.name.length + 1) + t.data.length + padLen (u.length + padLen u.length + t.name.length + 1 + padLen (u.length + padLen u.length + t.name.length + 1) + t.data.length) - u.length)) (y := le64 magicRightEndian ++ w) ?_ ?_ ?_
    · simp only [entryBytes, List.append_assoc]
    · simp
      try omega
    · simp
  have hcM : chunkAt (u ++ entryBytes u.length t ++ w)
      (u.length + padLen u.length + t.name.length + 1 + padLen (u.length + padLen u.length + t.name.length + 1) + t.data.length + padLen (u.length + padLen u.length + t.name.length + 1 + padLen (u.length + padLen u.length + t.name.length + 1) + t.data.length) + 32) (8)
      = le64 magicRightEndian := by
    refine chunkAt_of_decomp (x := u ++ zeros (padLen u.length) ++ t.name ++ [0] ++ zeros (padLen (u.length + padLen u.length + t.name.length + 1)) ++ t.data ++ zeros (padLen (u.length + padLen u.length + t.name.length + 1 + padLen (u.length + padLen u.length + t.name.length + 1) + t.data.length)) ++ le64 t.stamp ++ le64 t.name.length ++ le64 t.data.length ++ le64 (u.length + padLen u.length + t.name.length + 1 + padLen (u.length + padLen u.length + t.name.length + 1) + t.data.length + padLen (u.length + padLen u.length + t.name.length + 1 + padLen (u.length + padLen u.length + t.name.length + 1) + t.data.length) - u.length))
      (m := le64 magicRightEndian) (y := w) ?_ ?_ ?_
    · simp only [entryBytes, List.append_assoc]
    · simp
      try omega
    · simp
  have hcName : chunkAt (u ++ entryBytes u.length t ++ w)
      (u.length + padLen u.length) (t.name.length)
      = t.name := by
    refine chunkAt_of_decomp (x := u ++ zeros (padLen u.length))
      (m := t.name) (y := [0] ++ zeros (padLen (u.length + padLen u.length + t.name.length + 1)) ++ t.data ++ zeros (padLen (u.length + padLen u.length + t.name.length + 1 + padLen (u.length + padLen u.length + t.name.length + 1) + t.data.length)) ++ le64 t.stamp ++ le64 t.name.length ++ le64 t.data.length ++ le64 (u.length + padLen u.length + t.name.length + 1 + padLen (u.length + padLen u.length + t.name.length + 1) + t.data.length + padLen (u.length + padLen u.length + t.name.length + 1 + padLen (u.length + padLen u.length + t.name.length + 1) + t.data.length) - u.length) ++ le64 magicRightEndian ++ w) ?_ ?_ ?_
    · simp only [entryBytes, List.append_assoc]
    · simp
      try omega
    · simp
  have hdS : decodeLe64 (le64 t.stamp) = t.stamp := decodeLe64_le64_of_lt hst
  have hdN : decodeLe64 (le64 t.name.length) = t.name.length :=
    decodeLe64_le64_of_lt (by omega)
  have hdD : decodeLe64 (le64 t.data.length) = t.data.length :=
    decodeLe64_le64_of_lt (by omega)
  have hdF : decodeLe64 (le64 (u.length + padLen u.length + t.name.length + 1 + padLen (u.length + padLen u.length + t.name.length + 1) + t.data.length + padLen (u.length + padLen u.length + t.name.length + 1 + padLen (u.length + padLen u.length + t.name.length + 1) + t.data.length) - u.length)) = u.length + padLen u.length + t.name.length + 1 + padLen (u.length + padLen u.length + t.name.length + 1) + t.data.length + padLen (u.length + padLen u.length + t.name.length + 1 + padLen (u.length + padLen u.length + t.name.length + 1) + t.data.length) - u.length :=
    decodeLe64_le64_of_lt (by omega)
  have hdM : decodeLe64 (le64 magicRightEndian) = magicRightEndian :=
    decodeLe64_le64_of_lt (by norm_num [magicRightEndian])
  have hb : (((u.length + entryLen u.length t : Nat) : Int) - 40).toNat
      = u.length + padLen u.length + t.name.length + 1 + padLen (u.length + padLen u.length + t.name.length + 1) + t.data.length + padLen (u.length + padLen u.length + t.name.length + 1 + padLen (u.length + padLen u.length + t.name.length + 1) + t.data.length) := by
    omega
  have h1 : ¬ (((u.length + entryLen u.length t : Nat) : Int) < 40) := by
    have := entryLen_ge u.length t
    omega
  have h2 : ¬ (((u ++ entryBytes u.length t ++ w).length : Int) < ((u.length + entryLen u.length t : Nat) : Int)) := by
    omega
  simp only [loadLoop]
  rw [if_neg h1, if_neg h2]
  simp only [hb]
  simp only [hcS, hcN, hcD, hcF, hcM, hdS, hdN, hdD, hdF, hdM]
  rw [if_neg (by simp [magicRightEndian, magicWrongEndian])]
  have hFLlt : (u.length + padLen u.length + t.name.length + 1 + padLen (u.length + padLen u.length + t.name.length + 1) + t.data.length + padLen (u.length + padLen u.length + t.name.length + 1 + padLen (u.length + padLen u.length + t.name.length + 1) + t.data.length) - u.length) < 2 ^ 63 := by omega
  have htoi : toInt64 (u.length + padLen u.length + t.name.length + 1 + padLen (u.length + padLen u.length + t.name.length + 1) + t.data.length + padLen (u.length + padLen u.length + t.name.length + 1 + padLen (u.length + padLen u.length + t.name.length + 1) + t.data.length) - u.length) = ((u.length + padLen u.length + t.name.length + 1 + padLen (u.length + padLen u.length + t.name.length + 1) + t.data.length + padLen (u.length + padLen u.length + t.name.length + 1 + padLen (u.length + padLen u.length + t.name.length + 1) + t.data.length) - u.length : Nat) : Int) := by
    unfold toInt64
    rw [if_pos hFLlt]
  simp only [htoi]
  have hstart : ((u.length + entryLen u.length t : Nat) : Int) - 40 - ((u.length + padLen u.length + t.name.length + 1 + padLen (u.length + padLen u.length + t.name.length + 1) + t.data.length + padLen (u.length + padLen u.length + t.name.length + 1 + padLen (u.length + padLen u.length + t.name.length + 1) + t.data.length) - u.length : Nat) : Int)
      = (u.length : Int) := by
    omega
  simp only [hstart]
  rw [if_neg (by omega : ¬ ((u.length : Int) < 0))]
  simp only [Int.toNat_natCast]
  rw [if_neg (by omega : ¬ (((u ++ entryBytes u.length t ++ w).length : Int) < (u.length : Int) + (padLen u.length : Nat)))]
  have hA1n : ((u.length : Int) + (padLen u.length : Nat)).toNat = u.length + padLen u.length := by omega
  simp only [hA1n, hcName]
  rw [if_neg (by omega :
    ¬ (((u ++ entryBytes u.length t ++ w).length : Int) < (u.length : Int) + (padLen u.length : Nat) + (t.name.length : Nat)))]
  rw [if_neg (by omega :
    ¬ (((u ++ entryBytes u.length t ++ w).length : Int) < (u.length : Int) + (padLen u.length : Nat) + (t.name.length : Nat) + 1))]
  have hA2n : ((u.length : Int) + (padLen u.length : Nat) + (t.name.length : Nat) + 1).toNat
      = u.length + padLen u.length + t.name.length + 1 := by omega
  simp only [hA2n]
  rw [if_neg (by omega :
    ¬ (((u ++ entryBytes u.length t ++ w).length : Int) <
      (u.length : Int) + (padLen u.length : Nat) + (t.name.length : Nat) + 1 + (padLen (u.length + padLen u.length + t.name.length + 1) : Nat)))]
  have hA3n : ((u.length : Int) + (padLen u.length : Nat) + (t.name.length : Nat) + 1 + (padLen (u.length + padLen u.length + t.name.length + 1) : Nat)).toNat
      = u.length + padLen u.length + t.name.length + 1 + padLen (u.length + padLen u.length + t.name.length + 1) := by omega
  simp only [hA3n]
  rw [if_neg (by omega :
    ¬ (((u ++ entryBytes u.length t ++ w).length : Int) <
      (u.length : Int) + (padLen u.length : Nat) + (t.name.length : Nat) + 1 + (padLen (u.length + padLen u.length + t.name.length + 1) : Nat) +
        (t.data.length : Nat)))]
  have hA4n : ((u.length : Int) + (padLen u.length : Nat) + (t.name.length : Nat) + 1 + (padLen (u.length + padLen u.length + t.name.length + 1) : Nat) +
      (t.data.length : Nat)).toNat = u.length + padLen u.length + t.name.length + 1 + padLen (u.length + padLen u.length + t.name.length + 1) + t.data.length := by omega
  simp only [hA4n]
  rw [if_neg (by omega :
    ¬ (((u ++ entryBytes u.length t ++ w).length : Int) <
      (u.length : Int) + (padLen u.length : Nat) + (t.name.length : Nat) + 1 + (padLen (u.length + padLen u.length + t.name.length + 1) : Nat) +
        (t.data.length : Nat) + (padLen (u.length + padLen u.length + t.name.length + 1 + padLen (u.length + padLen u.length + t.name.length + 1) + t.data.length) : Nat)))]
  have hp7 : (u.length : Int) + (padLen u.length : Nat) + (t.name.length : Nat) + 1 + (padLen (u.length + padLen u.length + t.name.length + 1) : Nat) +
      (t.data.length : Nat) + (padLen (u.length + padLen u.length + t.name.length + 1 + padLen (u.length + padLen u.length + t.name.length + 1) + t.data.length) : Nat) - ((u.length + padLen u.length + t.name.length + 1 + padLen (u.length + padLen u.length + t.name.length + 1) + t.data.length + padLen (u.length + padLen u.length + t.name.length + 1 + padLen (u.length + padLen u.length + t.name.length + 1) + t.data.length) - u.length : Nat) : Int) = (u.length : Int) := by
    omega
  simp only [hp7]
  rw [if_neg (by omega : ¬ ((u.length : Int) < 0))]
  simp only [insertStep, payloadOff]

/-! ## Scanning a run of appended entries -/

theorem multiAppendFrom_cons (f : List Nat) (t : Triple) (ts : List Triple) :
    multiAppendFrom f (t :: ts) = multiAppendFrom (appendBytes f t) ts := rfl

theorem multiAppendFrom_suffix (ts : List Triple) :
    ∀ f : List Nat, ∃ d, multiAppendFrom f ts = f ++ d := by
  induction ts with
  | nil =>
    intro f
    exact ⟨[], by simp [multiAppendFrom]⟩
  | cons t rest ih =>
    intro f
    obtain ⟨d, hd⟩ := ih (appendBytes f t)
    refine ⟨entryBytes f.length t ++ d, ?_⟩
    rw [multiAppendFrom_cons, hd]
    simp [appendBytes, List.append_assoc]

theorem loadLoop_multi (beg e : Nat) (ts : List Triple) :
    ∀ (F v : List Nat) (toc : Toc) (count fuel : Nat),
      (multiAppendFrom F ts ++ v).length < 2 ^ 63 →
      (∀ t ∈ ts, t.stamp < 2 ^ 64) →
      loadLoop (multiAppendFrom F ts ++ v) beg e (fuel + ts.length)
          ((multiAppendFrom F ts).length : Int) toc count
        = loadLoop (multiAppendFrom F ts ++ v) beg e fuel (F.length : Int)
            (scanToc beg e F.length ts toc) (count + ts.length) := by
  induction ts with
  | nil =>
    intro F v toc count fuel _ _
    simp [multiAppendFrom, scanToc]
  | cons t rest ih =>
    intro F v toc count fuel hlen hst
    have h1 := ih (appendBytes F t) v toc count (fuel + 1)
      (by rw [multiAppendFrom_cons] at hlen; exact hlen)
      (fun x hx => hst x (List.mem_cons_of_mem t hx))
    obtain ⟨d, hd⟩ := multiAppendFrom_suffix rest (appendBytes F t)
    have hfeq : multiAppendFrom (appendBytes F t) rest ++ v
        = F ++ entryBytes F.length t ++ (d ++ v) := by
      rw [hd]
      simp [appendBytes, List.append_assoc]
    have hlen' : (F ++ entryBytes F.length t ++ (d ++ v)).length < 2 ^ 63 := by
      rw [← hfeq]
      rw [multiAppendFrom_cons] at hlen
      exact hlen
    have hstep := loadLoop_step F (d ++ v) t beg e
      (scanToc beg e (F.length + entryLen F.length t) rest toc) (count + rest.length) fuel
      hlen' (hst t (List.mem_cons_self t rest))
    rw [List.length_cons,
      show fuel + (rest.length + 1) = fuel + 1 + rest.length from by omega,
      show count + (rest.length + 1) = count + rest.length + 1 from by omega,
      multiAppendFrom_cons, h1, hfeq, length_appendBytes, hstep]
    rfl

theorem load_multiAppend (w : String) (toc0 : Toc) (fs : Fs) (beg e : Nat)
    (ts : List Triple)
    (hfs : fs w = multiAppend ts)
    (hlen : (multiAppend ts).length < 2 ^ 63)
    (hst : ∀ t ∈ ts, t.stamp < 2 ^ 64)
    (hbe : beg ≤ e) :
    Journey.load ⟨w, toc0⟩ fs beg e (ts.length + 1)
      = some (⟨w, scanToc beg e 0 ts []⟩, decide (0 < ts.length)) := by
  have hm := loadLoop_multi beg e ts [] [] [] 0 1
    (by simpa [multiAppend] using hlen)
    hst
  simp only [List.append_nil, List.length_nil] at hm
  unfold Journey.load
  rw [if_neg (by omega)]
  simp only [hfs]
  rw [show ts.length + 1 = 1 + ts.length from by omega]
  rw [show (multiAppend ts : List Nat) = multiAppendFrom [] ts from rfl, hm]
  rw [show ((0 : Nat) : Int) = (0 : Int) from rfl]
  simp [loadLoop, scanToc]

theorem findName_insertStep_preserved {beg e pos0 : Nat} {t : Triple} {toc : Toc}
    {n : List Nat} {ent : Entry} (h : findName n toc = some ent) :
    findName n (insertStep beg e pos0 t toc) = some ent := by
  unfold insertStep
  split_ifs with hc
  · have hne : t.name ≠ n := by
      intro he
      rw [he, h] at hc
      simp at hc
    simp only [findName, if_neg hne]
    exact h
  · exact h

theorem findName_scanToc_preserved (beg e : Nat) (ts : List Triple) :
    ∀ base toc n ent, findName n toc = some ent →
      findName n (scanToc beg e base ts toc) = some ent := by
  induction ts with
  | nil => intro base toc n ent h; exact h
  | cons t rest ih =>
    intro base toc n ent h
    exact findName_insertStep_preserved (ih _ _ _ _ h)

theorem findName_scanToc (beg e : Nat) (ts : List Triple) :
    ∀ base toc n, findName n toc = none →
      findName n (scanToc beg e base ts toc)
        = (winner beg e n base ts).map
            (fun r => ⟨payloadOff r.2 r.1, r.1.data.length, r.1.stamp⟩) := by
  induction ts with
  | nil => intro base toc n h; simpa [scanToc, winner]
  | cons t rest ih =>
    intro base toc n h
    have hrest := ih (base + entryLen base t) toc n h
    simp only [scanToc, winner]
    cases hw : winner beg e n (base + entryLen base t) rest with
    | some r =>
      rw [hw] at hrest
      simp only [Option.map_some'] at hrest ⊢
      exact findName_insertStep_preserved hrest
    | none =>
      rw [hw] at hrest
      simp only [Option.map_none'] at hrest
      by_cases hn : t.name = n
      · subst hn
        by_cases hwin : beg ≤ t.stamp ∧ t.stamp ≤ e
        · have hins : insertStep beg e base t
              (scanToc beg e (base + entryLen base t) rest toc)
              = (t.name, ⟨payloadOff base t, t.data.length, t.stamp⟩) ::
                  scanToc beg e (base + entryLen base t) rest toc := by
            unfold insertStep
            rw [if_pos ⟨hwin.1, hwin.2, by simp [hrest]⟩]
          rw [hins]
          simp [findName, hwin.1, hwin.2]
        · have hins : insertStep beg e base t
              (scanToc beg e (base + entryLen base t) rest toc)
              = scanToc beg e (base + entryLen base t) rest toc := by
            unfold insertStep
            rw [if_neg (fun hcc => hwin ⟨hcc.1, hcc.2.1⟩)]
          rw [hins, hrest]
          simp [hwin]
      · have hfind : findName n (insertStep beg e base t
            (scanToc beg e (base + entryLen base t) rest toc))
            = findName n (scanToc beg e (base + entryLen base t) rest toc) := by
          unfold insertStep
          split_ifs
          · simp [findName, hn]
          · rfl
        rw [hfind, hrest]
        simp [hn]

theorem winner_mem (beg e : Nat) (n : List Nat) (ts : List Triple) :
    ∀ base t b, winner beg e n base ts = some (t, b) →
      t ∈ ts ∧ t.name = n ∧ beg ≤ t.stamp ∧ t.stamp ≤ e := by
  induction ts with
  | nil => intro base t b h; simp [winner] at h
  | cons s rest ih =>
    intro base t b h
    simp only [winner] at h
    cases hr : winner beg e n (base + entryLen base s) rest with
    | some r =>
      rw [hr] at h
      simp only [Option.some.injEq] at h
      obtain ⟨h1, h2, h3, h4⟩ := ih _ t b (by rw [hr, h])
      exact ⟨List.mem_cons_of_mem s h1, h2, h3, h4⟩
    | none =>
      rw [hr] at h
      split_ifs at h with hc
      · obtain ⟨rfl, -⟩ : s = t ∧ base = b := by
          constructor <;> [exact congrArg Prod.fst (Option.some.inj h);
            exact congrArg Prod.snd (Option.some.inj h)]
        exact ⟨List.mem_cons_self s rest, hc.1, hc.2.1, hc.2.2⟩

theorem winner_decomp (beg e : Nat) (n : List Nat) (ts : List Triple) :
    ∀ (F : List Nat) t b, winner beg e n F.length ts = some (t, b) →
      ∃ x y, multiAppendFrom F ts = x ++ entryBytes x.length t ++ y ∧ x.length = b := by
  induction ts with
  | nil => intro F t b h; simp [winner] at h
  | cons s rest ih =>
    intro F t b h
    simp only [winner] at h
    cases hr : winner beg e n (F.length + entryLen F.length s) rest with
    | some r =>
      rw [hr] at h
      simp only [Option.some.injEq] at h
      have hr' : winner beg e n (appendBytes F s).length rest = some (t, b) := by
        rw [length_appendBytes, hr, h]
      obtain ⟨x, y, hxy, hb⟩ := ih (appendBytes F s) t b hr'
      exact ⟨x, y, by rw [multiAppendFrom_cons]; exact hxy, hb⟩
    | none =>
      rw [hr] at h
      split_ifs at h with hc
      · obtain ⟨hts, hbb⟩ : s = t ∧ F.length = b := by
          constructor <;> [exact congrArg Prod.fst (Option.some.inj h);
            exact congrArg Prod.snd (Option.some.inj h)]
        subst hts hbb
        obtain ⟨d, hd⟩ := multiAppendFrom_suffix rest (appendBytes F s)
        refine ⟨F, d, ?_, rfl⟩
        rw [multiAppendFrom_cons, hd]
        simp [appendBytes, List.append_assoc]

theorem chunkAt_payload (u y : List Nat) (t : Triple) :
    chunkAt (u ++ entryBytes u.length t ++ y) (payloadOff u.length t) t.data.length
      = t.data := by
  refine chunkAt_of_decomp (x := u ++ zeros (padLen u.length) ++ t.name ++ [0] ++
      zeros (padLen (u.length + padLen u.length + t.name.length + 1)))
    (m := t.data)
    (y := zeros (padLen (u.length + padLen u.length + t.name.length + 1 +
        padLen (u.length + padLen u.length + t.name.length + 1) + t.data.length)) ++
      le64 t.stamp ++ le64 t.name.length ++ le64 t.data.length ++
      le64 (u.length + padLen u.length + t.name.length + 1 +
        padLen (u.length + padLen u.length + t.name.length + 1) + t.data.length +
        padLen (u.length + padLen u.length + t.name.length + 1 +
          padLen (u.length + padLen u.length + t.name.length + 1) + t.data.length) -
        u.length) ++
      le64 magicRightEndian ++ y) ?_ ?_ ?_
  · simp only [entryBytes, List.append_assoc]
  · simp only [payloadOff, List.length_append, length_zeros, List.length_cons,
      List.length_nil]
    try omega
  · try rfl

theorem payloadOff_le (u : List Nat) (t : Triple) :
    payloadOff u.length t + t.data.length + 40 ≤ u.length + entryLen u.length t := by
  simp only [payloadOff, entryLen]
  omega

theorem payloadOff_ge (u : List Nat) (t : Triple) :
    u.length ≤ payloadOff u.length t := by
  simp only [payloadOff]
  omega

/-! ## C1 and C2: round-trip and newest-wins -/

theorem multiAppendFrom_snoc (F : List Nat) (ts : List Triple) (t : Triple) :
    multiAppendFrom F (ts ++ [t]) = appendBytes (multiAppendFrom F ts) t := by
  simp [multiAppendFrom, List.foldl_append]

theorem winner_append_right (beg e : Nat) (n : List Nat) (t : Triple)
    (hn : t.name = n) (h1 : beg ≤ t.stamp) (h2 : t.stamp ≤ e) :
    ∀ (ts : List Triple) (base : Nat),
      ∃ b, winner beg e n base (ts ++ [t]) = some (t, b) := by
  intro ts
  induction ts with
  | nil =>
    intro base
    refine ⟨base, ?_⟩
    simp [winner, hn, h1, h2]
  | cons s rest ih =>
    intro base
    obtain ⟨b, hb⟩ := ih (base + entryLen base s)
    refine ⟨b, ?_⟩
    simp only [List.cons_append, winner, List.append_eq, hb]

/-- C1.  Round-trip: on an archive whose journal holds any sequence of
appended records, a successful `append(N, P, S)` followed by
`load(0, S)` and `read(N)` yields exactly the payload `P` (empty
payloads included). -/
theorem c1_roundtrip
    (w : String) (fs : Fs) (toc0 : Toc) (ts : List Triple) (N P : List Nat) (S : Nat)
    (hfs : fs w = multiAppend ts)
    (hst : ∀ t ∈ ts, t.stamp < 2 ^ 64)
    (hS : S < 2 ^ 64)
    (hlen : (appendBytes (multiAppend ts) ⟨N, P, S⟩).length < 2 ^ 63)
    (happ : (Journey.append ⟨w, toc0⟩ fs N (some P) S).2 = true) :
    ∃ j1 : Journey,
      Journey.load ⟨w, toc0⟩ (Journey.append ⟨w, toc0⟩ fs N (some P) S).1 0 S
          (ts.length + 2) = some (j1, true) ∧
      j1.read (Journey.append ⟨w, toc0⟩ fs N (some P) S).1 N = some P := by
  have hcond : (⟨w, toc0⟩ : Journey).journal ≠ "" ∧ N ≠ [] := by
    by_contra hc
    rw [Journey.append, if_neg hc] at happ
    simp at happ
  have happ1 : Journey.append ⟨w, toc0⟩ fs N (some P) S
      = (setFs fs w (appendBytes (fs w) ⟨N, P, S⟩), true) := by
    rw [Journey.append, if_pos hcond]
  set t : Triple := ⟨N, P, S⟩ with ht
  have hfs1 : (Journey.append ⟨w, toc0⟩ fs N (some P) S).1 w
      = multiAppend (ts ++ [t]) := by
    rw [happ1]
    show setFs fs w (appendBytes (fs w) t) w = _
    rw [setFs, if_pos rfl, hfs]
    exact (multiAppendFrom_snoc [] ts t).symm
  have hlen' : (multiAppend (ts ++ [t])).length < 2 ^ 63 := by
    rw [multiAppend, multiAppendFrom_snoc]
    exact hlen
  have hload := load_multiAppend w toc0 (Journey.append ⟨w, toc0⟩ fs N (some P) S).1
    0 S (ts ++ [t]) hfs1 hlen'
    (by
      intro x hx
      rcases List.mem_append.mp hx with hx | hx
      · exact hst x hx
      · rw [List.mem_singleton.mp hx]; exact hS)
    (Nat.zero_le S)
  rw [List.length_append, List.length_singleton] at hload
  refine ⟨⟨w, scanToc 0 S 0 (ts ++ [t]) []⟩, ?_, ?_⟩
  · rw [show ts.length + 2 = ts.length + 1 + 1 from rfl, hload]
    simp
  · -- read the fresh record back
    obtain ⟨b, hwin⟩ := winner_append_right 0 S N t rfl (Nat.zero_le S) (le_refl S)
      ts 0
    have hfind : findName N (scanToc 0 S 0 (ts ++ [t]) [])
        = some ⟨payloadOff b t, t.data.length, t.stamp⟩ := by
      rw [findName_scanToc 0 S (ts ++ [t]) 0 [] N rfl, hwin]
      rfl
    obtain ⟨x, y, hxy, hxb⟩ := winner_decomp 0 S N (ts ++ [t]) [] t b
      (by rw [List.length_nil]; exact hwin)
    subst hxb
    rw [Journey.read]
    simp only [hfind]
    have hxy' : multiAppend (ts ++ [t]) = x ++ entryBytes x.length t ++ y := hxy
    have hdt : t.data.length = P.length := rfl
    have hoff : payloadOff x.length t + t.data.length
        ≤ (multiAppend (ts ++ [t])).length := by
      have h1 := payloadOff_le x t
      rw [hxy']
      simp only [List.length_append, length_entryBytes]
      omega
    rw [hfs1]
    split_ifs with hc
    · rw [hxy']
      exact congrArg some (chunkAt_payload x y t)
    · exfalso
      push_neg at hc
      have h2 := hc.2
      omega

theorem read_of_winner (w : String) (fs : Fs) (ts : List Triple) (beg e : Nat)
    (n : List Nat) (t : Triple) (b : Nat)
    (hfs : fs w = multiAppend ts)
    (hwin : winner beg e n 0 ts = some (t, b)) :
    Journey.read ⟨w, scanToc beg e 0 ts []⟩ fs n = some t.data := by
  have hfind : findName n (scanToc beg e 0 ts [])
      = some ⟨payloadOff b t, t.data.length, t.stamp⟩ := by
    rw [findName_scanToc beg e ts 0 [] n rfl, hwin]
    rfl
  obtain ⟨x, y, hxy, hxb⟩ := winner_decomp beg e n ts [] t b
    (by rw [List.length_nil]; exact hwin)
  subst hxb
  rw [Journey.read]
  simp only [hfind]
  have hxy' : multiAppend ts = x ++ entryBytes x.length t ++ y := hxy
  have hoff : payloadOff x.length t + t.data.length ≤ (multiAppend ts).length := by
    have h1 := payloadOff_le x t
    rw [hxy']
    simp only [List.length_append, length_entryBytes]
    omega
  rw [hfs]
  split_ifs with hc
  · rw [hxy']
    exact congrArg some (chunkAt_payload x y t)
  · exfalso
    push_neg at hc
    have h2 := hc.2
    omega

theorem read_of_winner_none (w : String) (fs : Fs) (ts : List Triple) (beg e : Nat)
    (n : List Nat)
    (hwin : winner beg e n 0 ts = none) :
    Journey.read ⟨w, scanToc beg e 0 ts []⟩ fs n = none := by
  have hfind : findName n (scanToc beg e 0 ts []) = none := by
    rw [findName_scanToc beg e ts 0 [] n rfl, hwin]
    rfl
  rw [Journey.read]
  simp only [hfind]

/-- C2.  Newest wins within the window: with two revisions of the same
name at stamps `S1 < S2`, `load(0, T)` then `read` yields the newer
payload when `T ≥ S2`, the older one when `S1 ≤ T < S2`, and not-found
when `T < S1`; the backward scan keeps the first (newest) record for a
name and ignores older ones. -/
theorem c2_newest_wins
    (w : String) (fs : Fs) (toc0 : Toc) (N P1 P2 : List Nat) (S1 S2 T : Nat)
    (hfs : fs w = multiAppend [⟨N, P1, S1⟩, ⟨N, P2, S2⟩])
    (h12 : S1 < S2) (hS2 : S2 < 2 ^ 64) (hP : P1 ≠ P2)
    (hlen : (multiAppend [⟨N, P1, S1⟩, ⟨N, P2, S2⟩]).length < 2 ^ 63) :
    ∃ j1 : Journey,
      Journey.load ⟨w, toc0⟩ fs 0 T 3 = some (j1, true) ∧
      (S2 ≤ T → j1.read fs N = some P2) ∧
      (S1 ≤ T → T < S2 → j1.read fs N = some P1) ∧
      (T < S1 → j1.read fs N = none) := by
  have hload := load_multiAppend w toc0 fs 0 T [⟨N, P1, S1⟩, ⟨N, P2, S2⟩] hfs hlen
    (by
      intro x hx
      simp only [List.mem_cons, List.not_mem_nil, or_false] at hx
      rcases hx with rfl | rfl
      · exact lt_trans h12 hS2
      · exact hS2)
    (Nat.zero_le T)
  refine ⟨⟨w, scanToc 0 T 0 [⟨N, P1, S1⟩, ⟨N, P2, S2⟩] []⟩, ?_, ?_, ?_, ?_⟩
  · rw [show (3 : Nat) = [(⟨N, P1, S1⟩ : Triple), ⟨N, P2, S2⟩].length + 1 from rfl,
      hload]
    rfl
  · intro hT
    have hwin : winner 0 T N 0 [⟨N, P1, S1⟩, ⟨N, P2, S2⟩]
        = some (⟨N, P2, S2⟩, 0 + entryLen 0 ⟨N, P1, S1⟩) := by
      simp [winner, hT]
    exact read_of_winner w fs _ 0 T N _ _ hfs hwin
  · intro hT1 hT2
    have hwin : winner 0 T N 0 [⟨N, P1, S1⟩, ⟨N, P2, S2⟩]
        = some (⟨N, P1, S1⟩, 0) := by
      simp [winner, hT1, Nat.not_le.mpr hT2]
    exact read_of_winner w fs _ 0 T N _ _ hfs hwin
  · intro hT
    have hwin : winner 0 T N 0 [⟨N, P1, S1⟩, ⟨N, P2, S2⟩] = none := by
      simp [winner, Nat.not_le.mpr hT, Nat.not_le.mpr (lt_trans hT h12)]
    exact read_of_winner_none w fs _ 0 T N hwin

/-- Witness for C1 at a concrete input: appending name `[104]` with the
empty payload at stamp 7 to an empty archive, then loading and reading. -/
theorem c1_roundtrip_witness :
    ∃ j1 : Journey,
      Journey.load ⟨"j", []⟩ ((Journey.append ⟨"j", []⟩ (fun _ => []) [104]
          (some []) 7).1) 0 7 2 = some (j1, true) ∧
      j1.read ((Journey.append ⟨"j", []⟩ (fun _ => []) [104] (some []) 7).1) [104]
        = some [] :=
  c1_roundtrip "j" (fun _ => []) [] [] [104] [] 7 rfl (by simp) (by norm_num)
    (by decide) (by decide)

/-- Witness for C2 at a concrete input: two revisions of `[97]` at stamps
5 and 9, loaded with window `[0, 9]`. -/
theorem c2_newest_wins_witness :
    ∃ j1 : Journey,
      Journey.load ⟨"j", []⟩
          (setFs (fun _ => []) "j" (multiAppend [⟨[97], [1], 5⟩, ⟨[97], [2], 9⟩]))
          0 9 3 = some (j1, true) ∧
      (9 ≤ 9 → j1.read
          (setFs (fun _ => []) "j" (multiAppend [⟨[97], [1], 5⟩, ⟨[97], [2], 9⟩]))
          [97] = some [2]) ∧
      (5 ≤ 9 → 9 < 9 → j1.read
          (setFs (fun _ => []) "j" (multiAppend [⟨[97], [1], 5⟩, ⟨[97], [2], 9⟩]))
          [97] = some [1]) ∧
      (9 < 5 → j1.read
          (setFs (fun _ => []) "j" (multiAppend [⟨[97], [1], 5⟩, ⟨[97], [2], 9⟩]))
          [97] = none) :=
  c2_newest_wins "j"
    (setFs (fun _ => []) "j" (multiAppend [⟨[97], [1], 5⟩, ⟨[97], [2], 9⟩]))
    [] [97] [1] [2] 5 9 9 (by simp [setFs]) (by norm_num) (by norm_num)
    (by decide) (by decide)

/-! ## C3, C7, C8, C9, C10 -/

/-- C3, counterexample to the claim as stated.  Appending name `[97]`
with an empty payload to an empty file produces a 48-byte entry whose
`filelen` field holds 8, not 48: `filelen` does not include the 40-byte
trailer. -/
theorem c3_counterexample :
    (appendBytes [] ⟨[97], [], 1⟩).length = 48 ∧
    decodeLe64 (chunkAt (appendBytes [] ⟨[97], [], 1⟩) 32 8) = 8 := by
  decide

/-- C3, amended.  For every entry written by `append`, the stored
`filelen` equals the byte length of the entry excluding its 40-byte
trailer (it covers `pad_1`, the name, the NUL byte, `pad_2`, the
payload and `pad_3` only), and the backward scan steps across the
trailer plus `filelen` bytes: one iteration started just after the
entry resumes exactly at the entry's start offset. -/
theorem c3_filelen (u w : List Nat) (t : Triple) (beg e : Nat) (toc : Toc)
    (count fuel : Nat)
    (hlen : (u ++ entryBytes u.length t ++ w).length < 2 ^ 63)
    (hst : t.stamp < 2 ^ 64) :
    decodeLe64 (chunkAt (u ++ entryBytes u.length t ++ w)
        (u.length + entryLen u.length t - 16) 8)
      = entryLen u.length t - 40 ∧
    loadLoop (u ++ entryBytes u.length t ++ w) beg e (fuel + 1)
        ((u.length + entryLen u.length t : Nat) : Int) toc count
      = loadLoop (u ++ entryBytes u.length t ++ w) beg e fuel (u.length : Int)
          (insertStep beg e u.length t toc) (count + 1) := by
  have hfl : (u ++ entryBytes u.length t ++ w).length
      = u.length + entryLen u.length t + w.length := by
    simp [length_entryBytes]
    try omega
  have hEL : entryLen u.length t = u.length + padLen u.length + t.name.length + 1 + padLen (u.length + padLen u.length + t.name.length + 1) + t.data.length + padLen (u.length + padLen u.length + t.name.length + 1 + padLen (u.length + padLen u.length + t.name.length + 1) + t.data.length) - u.length + 40 := by
    simp only [entryLen]
    try omega
  refine ⟨?_, loadLoop_step u w t beg e toc count fuel hlen hst⟩
  have hc : chunkAt (u ++ entryBytes u.length t ++ w)
      (u.length + entryLen u.length t - 16) 8 = le64 (u.length + padLen u.length + t.name.length + 1 + padLen (u.length + padLen u.length + t.name.length + 1) + t.data.length + padLen (u.length + padLen u.length + t.name.length + 1 + padLen (u.length + padLen u.length + t.name.length + 1) + t.data.length) - u.length) := by
    refine chunkAt_of_decomp
      (x := u ++ zeros (padLen u.length) ++ t.name ++ [0] ++ zeros (padLen (u.length + padLen u.length + t.name.length + 1)) ++ t.data ++ zeros (padLen (u.length + padLen u.length + t.name.length + 1 + padLen (u.length + padLen u.length + t.name.length + 1) + t.data.length)) ++ le64 t.stamp ++ le64 t.name.length ++ le64 t.data.length)
      (m := le64 (u.length + padLen u.length + t.name.length + 1 + padLen (u.length + padLen u.length + t.name.length + 1) + t.data.length + padLen (u.length + padLen u.length + t.name.length + 1 + padLen (u.length + padLen u.length + t.name.length + 1) + t.data.length) - u.length)) (y := le64 magicRightEndian ++ w) ?_ ?_ ?_
    · simp only [entryBytes, List.append_assoc]
    · simp
      try omega
    · simp
  rw [hc, decodeLe64_le64_of_lt (by omega)]
  omega

/-- Witness for C3 at a concrete entry: name `[97]`, empty payload,
stamp 1, appended to an empty file. -/
theorem c3_filelen_witness :
    decodeLe64 (chunkAt ([] ++ entryBytes ([] : List Nat).length ⟨[97], [], 1⟩ ++ [])
        (([] : List Nat).length + entryLen ([] : List Nat).length ⟨[97], [], 1⟩ - 16) 8)
      = entryLen ([] : List Nat).length ⟨[97], [], 1⟩ - 40 ∧
    loadLoop ([] ++ entryBytes ([] : List Nat).length ⟨[97], [], 1⟩ ++ []) 0 1 (1 + 1)
        ((([] : List Nat).length + entryLen ([] : List Nat).length ⟨[97], [], 1⟩ : Nat) : Int)
        [] 0
      = loadLoop ([] ++ entryBytes ([] : List Nat).length ⟨[97], [], 1⟩ ++ []) 0 1 1
          (([] : List Nat).length : Int)
          (insertStep 0 1 ([] : List Nat).length ⟨[97], [], 1⟩ []) (0 + 1) :=
  c3_filelen [] [] ⟨[97], [], 1⟩ 0 1 [] 0 1 (by decide) (by norm_num)

/-- C8, counterexample to the claim as stated.  `init("")` on an archive
holding a path and a toc record fails but also clears both: the state
changes. -/
theorem c8_counterexample :
    Journey.init ⟨"x", [([97], ⟨0, 0, 0⟩)]⟩ "" = (⟨"", []⟩, false) ∧
    (⟨"", []⟩ : Journey) ≠ (⟨"x", [([97], ⟨0, 0, 0⟩)]⟩ : Journey) := by
  decide

/-- C8, amended.  `init` with an empty path reports failure and leaves
the archive reset to the default state (empty path, empty toc),
regardless of the previous state: `*this = journey()` runs before the
path check. -/
theorem c8_init_empty_path (j : Journey) :
    Journey.init j "" = (⟨"", []⟩, false) := rfl

/-- C9.  `append` fails whenever the journal path is empty, the name is
empty, or the payload pointer is null; with a non-empty path and name
and a non-null pointer it appends one entry and succeeds, for payloads
of any length including zero. -/
theorem c9_append_preconditions (j : Journey) (fs : Fs) (name : List Nat)
    (ptr : Option (List Nat)) (stamp : Nat) :
    ((j.journal = "" ∨ name = [] ∨ ptr = none) →
      j.append fs name ptr stamp = (fs, false)) ∧
    (j.journal ≠ "" → name ≠ [] → ∀ data : List Nat,
      j.append fs name (some data) stamp
        = (setFs fs j.journal (appendBytes (fs j.journal) ⟨name, data, stamp⟩),
            true)) := by
  constructor
  · intro h
    cases ptr with
    | none => rfl
    | some data =>
      rcases h with h | h | h
      · simp [Journey.append, h]
      · simp [Journey.append, h]
      · simp at h
  · intro h1 h2 data
    rw [Journey.append.eq_def]
    exact if_pos ⟨h1, h2⟩

/-- Witness for C9: empty-name append fails, zero-length append with a
valid name and path succeeds. -/
theorem c9_append_preconditions_witness :
    Journey.append ⟨"j", []⟩ (fun _ => []) [] (some [5]) 1 = ((fun _ => []), false) ∧
    Journey.append ⟨"j", []⟩ (fun _ => []) [97] (some []) 1
      = (setFs (fun _ => [])
          "j" (appendBytes ((fun _ : String => ([] : List Nat)) "j") ⟨[97], [], 1⟩),
          true) :=
  ⟨(c9_append_preconditions ⟨"j", []⟩ (fun _ => []) [] (some [5]) 1).1
      (Or.inr (Or.inl rfl)),
    (c9_append_preconditions ⟨"j", []⟩ (fun _ => []) [97] (some []) 1).2
      (by decide) (by decide) []⟩

/-- A 48-byte container: 8 filler bytes followed by a single trailer
whose fields are `stamp = 0`, `namelen = 7`, `datalen = 32`,
`filelen = 0`, and a valid magic.  Because `filelen = 0`, the scan's
final `seekg(-filelen)` does not move the cursor. -/
def stuckFile : List Nat :=
  List.replicate 8 0 ++ le64 0 ++ le64 7 ++ le64 32 ++ le64 0 ++
    le64 magicRightEndian

/-- C10 fails on the code: on `stuckFile` the backward scan re-reads the
same trailer forever.  Each iteration ends with the cursor back at 48,
so for every iteration bound the loop is still running: the C++ `while`
never exits. -/
theorem c10_divergence :
    ∀ (fuel : Nat) (toc : Toc) (count : Nat),
      loadLoop stuckFile 0 (2 ^ 64) fuel 48 toc count = none := by
  intro fuel
  induction fuel with
  | zero => intro toc count; rfl
  | succ m ih =>
    intro toc count
    rw [loadLoop]
    rw [if_neg (by norm_num), if_neg (by decide)]
    have hS : decodeLe64 (chunkAt stuckFile 8 8) = 0 := by decide
    have hN : decodeLe64 (chunkAt stuckFile (8 + 8) 8) = 7 := by decide
    have hD : decodeLe64 (chunkAt stuckFile (8 + 16) 8) = 32 := by decide
    have hF : decodeLe64 (chunkAt stuckFile (8 + 24) 8) = 0 := by decide
    have hM : decodeLe64 (chunkAt stuckFile (8 + 32) 8) = magicRightEndian := by
      decide
    have h48 : ((stuckFile.length : Nat) : Int) = 48 := by decide
    simp only [show ((48 : Int) - 40).toNat = 8 from by decide, hS, hN, hD, hF, hM,
      h48, show toInt64 0 = 0 from by decide]
    rw [if_neg (by simp [magicRightEndian, magicWrongEndian])]
    norm_num [padLen]
    exact ih _ _

/-- C7, counterexample to the claim as stated.  A one-entry archive with
stamp 5 loaded with window `[10, 20]` yields an empty toc (no entry lies
in the window) yet `load` reports success: the entry counter counts
every scanned entry, not only in-window ones. -/
theorem c7_counterexample :
    Journey.load ⟨"a", []⟩ (setFs (fun _ => []) "a" (multiAppend [⟨[97], [98], 5⟩]))
        10 20 2 = some (⟨"a", []⟩, true) ∧ ¬ (10 ≤ 5 ∧ 5 ≤ 20) := by
  decide

/-- C7, amended.  `load` succeeds exactly when at least one valid entry
was scanned (whatever its stamp) and no I/O error occurred: on an
archive of `ts` appended records the result flag is `0 < ts.length`,
independent of the window; and any container shorter than 40 bytes
yields an empty toc and failure. -/
theorem c7_load_success (w : String) (toc0 : Toc) (fs : Fs) (beg e : Nat)
    (ts : List Triple)
    (hfs : fs w = multiAppend ts)
    (hlen : (multiAppend ts).length < 2 ^ 63)
    (hst : ∀ t ∈ ts, t.stamp < 2 ^ 64)
    (hbe : beg ≤ e) :
    Journey.load ⟨w, toc0⟩ fs beg e (ts.length + 1)
      = some (⟨w, scanToc beg e 0 ts []⟩, decide (0 < ts.length)) ∧
    (∀ (w2 : String) (toc2 : Toc) (fs2 : Fs) (beg2 e2 fuel2 : Nat),
      (fs2 w2).length < 40 → beg2 ≤ e2 → 1 ≤ fuel2 →
      Journey.load ⟨w2, toc2⟩ fs2 beg2 e2 fuel2 = some (⟨w2, []⟩, false)) := by
  refine ⟨load_multiAppend w toc0 fs beg e ts hfs hlen hst hbe, ?_⟩
  intro w2 toc2 fs2 beg2 e2 fuel2 hshort hbe2 hfuel
  rw [Journey.load, if_neg (by omega)]
  cases fuel2 with
  | zero => omega
  | succ m =>
    rw [loadLoop]
    rw [if_pos (by exact_mod_cast Nat.lt_of_lt_of_le hshort (by norm_num))]
    rfl

/-- Witness for C7: a one-entry archive scanned with an excluding window
still succeeds, and an empty container fails with an empty toc. -/
theorem c7_load_success_witness :
    Journey.load ⟨"a", []⟩ (setFs (fun _ => []) "a" (multiAppend [⟨[97], [98], 5⟩]))
        10 20 ([⟨[97], [98], 5⟩] : List Triple).length.succ
      = some (⟨"a", scanToc 10 20 0 [⟨[97], [98], 5⟩] []⟩, decide (0 < ([⟨[97], [98], 5⟩] : List Triple).length)) ∧
    (∀ (w2 : String) (toc2 : Toc) (fs2 : Fs) (beg2 e2 fuel2 : Nat),
      (fs2 w2).length < 40 → beg2 ≤ e2 → 1 ≤ fuel2 →
      Journey.load ⟨w2, toc2⟩ fs2 beg2 e2 fuel2 = some (⟨w2, []⟩, false)) :=
  c7_load_success "a" [] (setFs (fun _ => []) "a" (multiAppend [⟨[97], [98], 5⟩]))
    10 20 [⟨[97], [98], 5⟩] (by simp [setFs]) (by decide)
    (by intro t ht; simp at ht; rw [ht]; norm_num) (by norm_num)


/-! ## Alignment: entries depend on their start offset only modulo 8 -/

theorem entryLen_congr {p q : Nat} (t : Triple) (h : p % 8 = q % 8) :
    entryLen p t = entryLen q t := by
  have h1 : padLen p = padLen q := padLen_congr h
  have h2 : padLen (p + padLen p + t.name.length + 1)
      = padLen (q + padLen q + t.name.length + 1) := padLen_congr (by omega)
  have h3 : padLen (p + padLen p + t.name.length + 1 +
        padLen (p + padLen p + t.name.length + 1) + t.data.length)
      = padLen (q + padLen q + t.name.length + 1 +
        padLen (q + padLen q + t.name.length + 1) + t.data.length) :=
    padLen_congr (by omega)
  simp only [entryLen]
  omega

theorem entryBytes_congr {p q : Nat} (t : Triple) (h : p % 8 = q % 8) :
    entryBytes p t = entryBytes q t := by
  have h1 : padLen p = padLen q := padLen_congr h
  simp only [entryBytes]
  rw [h1]
  have h2 : padLen (p + padLen q + t.name.length + 1)
      = padLen (q + padLen q + t.name.length + 1) := padLen_congr (by omega)
  rw [h2]
  have h3 : padLen (p + padLen q + t.name.length + 1 +
        padLen (q + padLen q + t.name.length + 1) + t.data.length)
      = padLen (q + padLen q + t.name.length + 1 +
        padLen (q + padLen q + t.name.length + 1) + t.data.length) :=
    padLen_congr (by omega)
  rw [h3]
  have h4 : p + padLen q + t.name.length + 1 +
        padLen (q + padLen q + t.name.length + 1) + t.data.length +
        padLen (q + padLen q + t.name.length + 1 +
          padLen (q + padLen q + t.name.length + 1) + t.data.length) - p
      = q + padLen q + t.name.length + 1 +
        padLen (q + padLen q + t.name.length + 1) + t.data.length +
        padLen (q + padLen q + t.name.length + 1 +
          padLen (q + padLen q + t.name.length + 1) + t.data.length) - q := by
    omega
  rw [h4]

theorem multiAppendFrom_length_emod (ts : List Triple) :
    ∀ g : List Nat, g.length % 8 = 0 →
      (multiAppendFrom g ts).length % 8 = 0 := by
  induction ts with
  | nil => intro g hg; exact hg
  | cons t rest ih =>
    intro g hg
    exact ih _ (length_appendBytes_emod g t)

theorem multiAppend_length_emod (ts : List Triple) :
    (multiAppend ts).length % 8 = 0 :=
  multiAppendFrom_length_emod ts [] rfl

theorem multiAppendFrom_eq_of_aligned (ts : List Triple) :
    ∀ g : List Nat, g.length % 8 = 0 →
      multiAppendFrom g ts = g ++ multiAppend ts := by
  induction ts with
  | nil =>
    intro g hg
    simp [multiAppendFrom, multiAppend]
  | cons t rest ih =>
    intro g hg
    rw [multiAppendFrom_cons, ih (appendBytes g t) (length_appendBytes_emod g t)]
    rw [show multiAppend (t :: rest) = multiAppendFrom (appendBytes [] t) rest from
      rfl]
    rw [ih (appendBytes [] t) (length_appendBytes_emod [] t)]
    have hE : entryBytes g.length t = entryBytes 0 t :=
      entryBytes_congr t (by omega)
    simp [appendBytes, hE, List.append_assoc]

theorem winner_shift (beg e : Nat) (n : List Nat) (ts : List Triple) (k : Nat)
    (hk : k % 8 = 0) :
    ∀ base : Nat,
      winner beg e n (k + base) ts
        = (winner beg e n base ts).map (fun r => (r.1, k + r.2)) := by
  induction ts with
  | nil => intro base; simp [winner]
  | cons t rest ih =>
    intro base
    simp only [winner]
    have hL : entryLen (k + base) t = entryLen base t :=
      entryLen_congr t (by omega)
    rw [hL, show k + base + entryLen base t = k + (base + entryLen base t) from by
      omega, ih (base + entryLen base t)]
    cases winner beg e n (base + entryLen base t) rest with
    | some r => rfl
    | none => split_ifs <;> rfl

theorem winner_append (beg e : Nat) (n : List Nat) (ts1 ts2 : List Triple) :
    ∀ g : List Nat,
      winner beg e n g.length (ts1 ++ ts2)
        = match winner beg e n (multiAppendFrom g ts1).length ts2 with
          | some r => some r
          | none => winner beg e n g.length ts1 := by
  induction ts1 with
  | nil =>
    intro g
    cases hx : winner beg e n (multiAppendFrom g []).length ts2 with
    | some r => simpa [multiAppendFrom] using hx
    | none => simpa [winner, multiAppendFrom] using hx
  | cons t rest ih =>
    intro g
    simp only [List.cons_append, winner, List.append_eq]
    rw [show g.length + entryLen g.length t = (appendBytes g t).length from
      (length_appendBytes g t).symm]
    rw [ih (appendBytes g t), ← multiAppendFrom_cons]
    cases winner beg e n (multiAppendFrom g (t :: rest)).length ts2 with
    | some r => rfl
    | none => rfl

/-- C5.  Concat validity: the byte concatenation of two archives built
by appends is itself a loadable archive, and loading it with the full
window yields the union of the two tocs, entries of `B` shadowing
same-name entries of `A`. -/
theorem c5_concat (w wA wB : String) (fs fsA fsB : Fs) (ts1 ts2 : List Triple)
    (jA jB : Journey)
    (h1 : ts1 ≠ []) (h2 : ts2 ≠ [])
    (hfs : fs w = multiAppend ts1 ++ multiAppend ts2)
    (hfsA : fsA wA = multiAppend ts1) (hfsB : fsB wB = multiAppend ts2)
    (hlen : (multiAppend ts1 ++ multiAppend ts2).length < 2 ^ 63)
    (hst1 : ∀ t ∈ ts1, t.stamp < 2 ^ 64) (hst2 : ∀ t ∈ ts2, t.stamp < 2 ^ 64)
    (hloadA : Journey.load ⟨wA, []⟩ fsA 0 (2 ^ 64) (ts1.length + 1)
      = some (jA, true))
    (hloadB : Journey.load ⟨wB, []⟩ fsB 0 (2 ^ 64) (ts2.length + 1)
      = some (jB, true)) :
    multiAppend ts1 ++ multiAppend ts2 = multiAppend (ts1 ++ ts2) ∧
    ∃ j : Journey,
      Journey.load ⟨w, []⟩ fs 0 (2 ^ 64) (ts1.length + ts2.length + 1)
        = some (j, true) ∧
      ∀ n : List Nat,
        ((findName n j.toc).isSome ↔
          (findName n jA.toc).isSome ∨ (findName n jB.toc).isSome) ∧
        ((findName n jB.toc).isSome → j.read fs n = jB.read fsB n) ∧
        (findName n jB.toc = none → findName n j.toc = findName n jA.toc ∧
          ((findName n jA.toc).isSome → j.read fs n = jA.read fsA n)) := by
  have hcat : multiAppend ts1 ++ multiAppend ts2 = multiAppend (ts1 ++ ts2) := by
    rw [show multiAppend (ts1 ++ ts2) = multiAppendFrom (multiAppend ts1) ts2 from by
      simp [multiAppendFrom, multiAppend, List.foldl_append]]
    exact (multiAppendFrom_eq_of_aligned ts2 (multiAppend ts1)
      (multiAppend_length_emod ts1)).symm
  have hlenA : (multiAppend ts1).length < 2 ^ 63 := by
    simp only [List.length_append] at hlen
    omega
  have hlenB : (multiAppend ts2).length < 2 ^ 63 := by
    simp only [List.length_append] at hlen
    omega
  have hA := load_multiAppend wA [] fsA 0 (2 ^ 64) ts1 hfsA hlenA hst1 (by norm_num)
  have hB := load_multiAppend wB [] fsB 0 (2 ^ 64) ts2 hfsB hlenB hst2 (by norm_num)
  have hjA : jA = ⟨wA, scanToc 0 (2 ^ 64) 0 ts1 []⟩ :=
    (((Prod.mk.injEq _ _ _ _).mp (Option.some.inj (hA.symm.trans hloadA))).1).symm
  have hjB : jB = ⟨wB, scanToc 0 (2 ^ 64) 0 ts2 []⟩ :=
    (((Prod.mk.injEq _ _ _ _).mp (Option.some.inj (hB.symm.trans hloadB))).1).symm
  subst hjA hjB
  have hfs' : fs w = multiAppend (ts1 ++ ts2) := by rw [hfs, hcat]
  have hst12 : ∀ t ∈ ts1 ++ ts2, t.stamp < 2 ^ 64 := by
    intro t ht
    rcases List.mem_append.mp ht with ht | ht
    · exact hst1 t ht
    · exact hst2 t ht
  have hlen' : (multiAppend (ts1 ++ ts2)).length < 2 ^ 63 := by
    rw [← hcat]
    exact hlen
  have hC := load_multiAppend w [] fs 0 (2 ^ 64) (ts1 ++ ts2) hfs' hlen' hst12
    (by norm_num)
  refine ⟨hcat, ⟨w, scanToc 0 (2 ^ 64) 0 (ts1 ++ ts2) []⟩, ?_, ?_⟩
  · have hpos : 0 < (ts1 ++ ts2).length := by
      cases ts1 with
      | nil => exact absurd rfl h1
      | cons a l => simp
    rw [show ts1.length + ts2.length + 1 = (ts1 ++ ts2).length + 1 from by simp,
      hC, decide_eq_true hpos]
  · intro n
    have hTOC := findName_scanToc 0 (2 ^ 64) (ts1 ++ ts2) 0 [] n rfl
    have hTA := findName_scanToc 0 (2 ^ 64) ts1 0 [] n rfl
    have hTB := findName_scanToc 0 (2 ^ 64) ts2 0 [] n rfl
    have hwapp : winner 0 (2 ^ 64) n 0 (ts1 ++ ts2)
        = match winner 0 (2 ^ 64) n (multiAppend ts1).length ts2 with
          | some r => some r
          | none => winner 0 (2 ^ 64) n 0 ts1 := by
      have h := winner_append 0 (2 ^ 64) n ts1 ts2 []
      simpa [multiAppend] using h
    have hshift : winner 0 (2 ^ 64) n (multiAppend ts1).length ts2
        = (winner 0 (2 ^ 64) n 0 ts2).map
            (fun r => (r.1, (multiAppend ts1).length + r.2)) := by
      have h := winner_shift 0 (2 ^ 64) n ts2 (multiAppend ts1).length
        (multiAppend_length_emod ts1) 0
      simpa using h
    cases hwB : winner 0 (2 ^ 64) n 0 ts2 with
    | some rB =>
      obtain ⟨tB, bB⟩ := rB
      have hwC : winner 0 (2 ^ 64) n 0 (ts1 ++ ts2)
          = some (tB, (multiAppend ts1).length + bB) := by
        rw [hwapp, hshift, hwB]
        rfl
      refine ⟨?_, ?_, ?_⟩
      · rw [hTOC, hTA, hTB, hwC, hwB]
        simp
      · intro _
        rw [read_of_winner w fs (ts1 ++ ts2) 0 (2 ^ 64) n tB _ hfs' hwC,
          read_of_winner wB fsB ts2 0 (2 ^ 64) n tB bB hfsB hwB]
      · intro hB0
        rw [hTB, hwB] at hB0
        simp at hB0
    | none =>
      have hwC : winner 0 (2 ^ 64) n 0 (ts1 ++ ts2) = winner 0 (2 ^ 64) n 0 ts1 := by
        rw [hwapp, hshift, hwB]
        rfl
      refine ⟨?_, ?_, ?_⟩
      · rw [hTOC, hTA, hTB, hwC, hwB]
        simp
      · intro hBs
        rw [hTB, hwB] at hBs
        simp at hBs
      · intro _
        refine ⟨by rw [hTOC, hTA, hwC], ?_⟩
        intro hAs
        cases hwA : winner 0 (2 ^ 64) n 0 ts1 with
        | none =>
          rw [hTA, hwA] at hAs
          simp at hAs
        | some rA =>
          obtain ⟨tA, bA⟩ := rA
          rw [read_of_winner w fs (ts1 ++ ts2) 0 (2 ^ 64) n tA bA hfs'
              (by rw [hwC, hwA]),
            read_of_winner wA fsA ts1 0 (2 ^ 64) n tA bA hfsA hwA]

/-! ## Shifting a toc past a foreign byte block -/

/-- The toc with every payload offset moved forward by `k` bytes. -/
def shiftToc (k : Nat) (toc : Toc) : Toc :=
  toc.map (fun p => (p.1, ⟨k + p.2.offset, p.2.size, p.2.stamp⟩))

theorem findName_shiftToc (k : Nat) (n : List Nat) :
    ∀ toc : Toc, findName n (shiftToc k toc)
      = (findName n toc).map (fun ent => ⟨k + ent.offset, ent.size, ent.stamp⟩) := by
  intro toc
  induction toc with
  | nil => rfl
  | cons p rest ih =>
    obtain ⟨m, ent⟩ := p
    by_cases hm : m = n
    · simp [shiftToc, findName, hm]
    · simpa [shiftToc, findName, hm] using ih

theorem payloadOff_shift {k : Nat} (base : Nat) (t : Triple) (hk : k % 8 = 0) :
    payloadOff (k + base) t = k + payloadOff base t := by
  have h1 : padLen (k + base) = padLen base := padLen_congr (by omega)
  have h2 : padLen (k + base + padLen base + t.name.length + 1)
      = padLen (base + padLen base + t.name.length + 1) := padLen_congr (by omega)
  simp only [payloadOff]
  rw [h1]
  omega

theorem insertStep_shift {k : Nat} (beg e base : Nat) (t : Triple) (toc : Toc)
    (hk : k % 8 = 0) :
    insertStep beg e (k + base) t (shiftToc k toc)
      = shiftToc k (insertStep beg e base t toc) := by
  unfold insertStep
  rw [findName_shiftToc]
  cases hx : findName t.name toc with
  | some ent => simp
  | none =>
    simp only [Option.map_none', Option.isNone_none]
    split_ifs
    · simp [shiftToc, payloadOff_shift base t hk]
    · rfl

theorem scanToc_shift (beg e : Nat) (ts : List Triple) (k : Nat) (hk : k % 8 = 0) :
    ∀ (base : Nat) (toc : Toc),
      scanToc beg e (k + base) ts (shiftToc k toc)
        = shiftToc k (scanToc beg e base ts toc) := by
  induction ts with
  | nil => intro base toc; rfl
  | cons t rest ih =>
    intro base toc
    simp only [scanToc]
    rw [entryLen_congr t (show (k + base) % 8 = base % 8 from by omega),
      show k + base + entryLen base t = k + (base + entryLen base t) from by omega,
      ih (base + entryLen base t) toc, insertStep_shift beg e base t _ hk]

theorem chunkAt_after_block (F A : List Nat) (p n : Nat) :
    chunkAt (F ++ A) (F.length + p) n = chunkAt A p n := by
  unfold chunkAt
  have h : (F ++ A).drop (F.length + p) = A.drop p := by
    rw [← List.drop_drop, List.drop_left]
  rw [h]

theorem read_of_winner_shifted (w : String) (fs : Fs) (F : List Nat)
    (ts : List Triple) (beg e : Nat) (n : List Nat) (t : Triple) (b : Nat)
    (hfs : fs w = F ++ multiAppend ts)
    (hwin : winner beg e n 0 ts = some (t, b)) :
    Journey.read ⟨w, shiftToc F.length (scanToc beg e 0 ts [])⟩ fs n
      = some t.data := by
  have hfind : findName n (shiftToc F.length (scanToc beg e 0 ts []))
      = some ⟨F.length + payloadOff b t, t.data.length, t.stamp⟩ := by
    rw [findName_shiftToc, findName_scanToc beg e ts 0 [] n rfl, hwin]
    rfl
  obtain ⟨x, y, hxy, hxb⟩ := winner_decomp beg e n ts [] t b
    (by rw [List.length_nil]; exact hwin)
  subst hxb
  rw [Journey.read]
  simp only [hfind]
  have hxy' : multiAppend ts = x ++ entryBytes x.length t ++ y := hxy
  have hoff : F.length + payloadOff x.length t + t.data.length
      ≤ (F ++ multiAppend ts).length := by
    have h1 := payloadOff_le x t
    rw [hxy']
    simp only [List.length_append, length_entryBytes]
    omega
  rw [hfs]
  split_ifs with hc
  · rw [hxy', chunkAt_after_block, chunkAt_payload x y t]
  · exfalso
    push_neg at hc
    have h2 := hc.2
    omega

theorem loadLoop_stop (F rest : List Nat) (beg e : Nat) (toc : Toc) (count : Nat)
    (fuel : Nat)
    (hmag : 40 ≤ F.length →
      decodeLe64 (chunkAt F (F.length - 40 + 32) 8) ≠ magicRightEndian ∧
      decodeLe64 (chunkAt F (F.length - 40 + 32) 8) ≠ magicWrongEndian) :
    loadLoop (F ++ rest) beg e (fuel + 1) (F.length : Int) toc count
      = some (toc, decide (0 < count)) := by
  rw [loadLoop]
  by_cases hF : F.length < 40
  · rw [if_pos (by exact_mod_cast hF)]
  · push_neg at hF
    rw [if_neg (by push_cast; omega)]
    rw [if_neg (by simp only [List.length_append]; push_cast; omega)]
    have hb : (((F.length : Nat) : Int) - 40).toNat = F.length - 40 := by omega
    simp only [hb]
    have hch : chunkAt (F ++ rest) (F.length - 40 + 32) 8
        = chunkAt F (F.length - 40 + 32) 8 := chunkAt_append_left (by omega)
    simp only [hch]
    rw [if_pos (hmag hF)]

/-- C6, amended.  Prepending a foreign block `F` whose length is a
multiple of 8 and whose final 40-byte window (when it exists) does not
decode to a valid magic leaves loading intact: `load` succeeds with the
same flag, the toc holds the same names, sizes and stamps with payload
offsets shifted by `F.length`, and every `read` returns the same bytes
as on the original archive. -/
theorem c6_foreign_prefix (w wA : String) (fs fsA : Fs) (F : List Nat)
    (ts : List Triple) (jA : Journey)
    (hmod : F.length % 8 = 0)
    (hts : ts ≠ [])
    (hfs : fs w = F ++ multiAppend ts)
    (hfsA : fsA wA = multiAppend ts)
    (hlen : (F ++ multiAppend ts).length < 2 ^ 63)
    (hst : ∀ t ∈ ts, t.stamp < 2 ^ 64)
    (hmag : 40 ≤ F.length →
      decodeLe64 (chunkAt F (F.length - 40 + 32) 8) ≠ magicRightEndian ∧
      decodeLe64 (chunkAt F (F.length - 40 + 32) 8) ≠ magicWrongEndian)
    (hloadA : Journey.load ⟨wA, []⟩ fsA 0 (2 ^ 64) (ts.length + 1)
      = some (jA, true)) :
    Journey.load ⟨w, []⟩ fs 0 (2 ^ 64) (ts.length + 1)
      = some (⟨w, shiftToc F.length jA.toc⟩, true) ∧
    ∀ n : List Nat,
      findName n (shiftToc F.length jA.toc)
        = (findName n jA.toc).map
            (fun ent => ⟨F.length + ent.offset, ent.size, ent.stamp⟩) ∧
      Journey.read ⟨w, shiftToc F.length jA.toc⟩ fs n = jA.read fsA n := by
  have hlenA : (multiAppend ts).length < 2 ^ 63 := by
    simp only [List.length_append] at hlen
    omega
  have hA := load_multiAppend wA [] fsA 0 (2 ^ 64) ts hfsA hlenA hst (by norm_num)
  have hjA : jA = ⟨wA, scanToc 0 (2 ^ 64) 0 ts []⟩ :=
    (((Prod.mk.injEq _ _ _ _).mp (Option.some.inj (hA.symm.trans hloadA))).1).symm
  subst hjA
  have hfseq : F ++ multiAppend ts = multiAppendFrom F ts :=
    (multiAppendFrom_eq_of_aligned ts F hmod).symm
  have hm := loadLoop_multi 0 (2 ^ 64) ts F [] [] 0 1
    (by rw [List.append_nil, ← hfseq]; exact hlen) hst
  simp only [List.append_nil] at hm
  have hsh : scanToc 0 (2 ^ 64) F.length ts []
      = shiftToc F.length (scanToc 0 (2 ^ 64) 0 ts []) := by
    have h := scanToc_shift 0 (2 ^ 64) ts F.length hmod 0 []
    simpa [shiftToc] using h
  have hpos : 0 < ts.length := by
    cases ts with
    | nil => exact absurd rfl hts
    | cons a l => simp
  constructor
  · rw [Journey.load, if_neg (by norm_num)]
    rw [show (⟨w, ([] : Toc)⟩ : Journey).journal = w from rfl, hfs]
    rw [show ts.length + 1 = 1 + ts.length from by omega]
    rw [hfseq, hm, ← hfseq]
    rw [loadLoop_stop F (multiAppend ts) 0 (2 ^ 64)
      (scanToc 0 (2 ^ 64) F.length ts []) (0 + ts.length) 0 hmag]
    rw [hsh]
    have hd : decide (0 < 0 + ts.length) = true := decide_eq_true (by omega)
    rw [hd]
  · intro n
    refine ⟨findName_shiftToc F.length n (scanToc 0 (2 ^ 64) 0 ts []), ?_⟩
    cases hw : winner 0 (2 ^ 64) n 0 ts with
    | some r =>
      obtain ⟨t, b⟩ := r
      rw [read_of_winner_shifted w fs F ts 0 (2 ^ 64) n t b hfs hw,
        read_of_winner wA fsA ts 0 (2 ^ 64) n t b hfsA hw]
    | none =>
      have hfn : findName n (scanToc 0 (2 ^ 64) 0 ts []) = none := by
        rw [findName_scanToc 0 (2 ^ 64) ts 0 [] n rfl, hw]
        rfl
      rw [Journey.read, Journey.read]
      rw [findName_shiftToc, hfn]
      rfl

/-- C6, counterexample to the claim as stated.  `F = [0]` is a single
byte (too short to contain any trailer, so the claim's precondition
holds), yet prepending it to a one-entry archive shifts every alignment
padding: the scan reads the wrong name bytes, the loaded toc keys
differ, and `read` of the original name fails. -/
theorem c6_counterexample :
    Journey.load ⟨"a", []⟩
        (setFs (fun _ => []) "a" ([0] ++ multiAppend [⟨[97], [98], 1⟩]))
        0 (2 ^ 64) 2
      = some (⟨"a", [([0], ⟨16, 1, 1⟩)]⟩, true) ∧
    Journey.load ⟨"a", []⟩ (setFs (fun _ => []) "a" (multiAppend [⟨[97], [98], 1⟩]))
        0 (2 ^ 64) 2
      = some (⟨"a", [([97], ⟨8, 1, 1⟩)]⟩, true) ∧
    Journey.read ⟨"a", [([0], ⟨16, 1, 1⟩)]⟩
        (setFs (fun _ => []) "a" ([0] ++ multiAppend [⟨[97], [98], 1⟩])) [97]
      = none ∧
    Journey.read ⟨"a", [([97], ⟨8, 1, 1⟩)]⟩
        (setFs (fun _ => []) "a" (multiAppend [⟨[97], [98], 1⟩])) [97]
      = some [98] := by
  decide

/-- Witness for C5 at concrete inputs: archives `A` and `B` each holding
one revision of name `[97]`, `B`'s entry shadowing `A`'s. -/
theorem c5_concat_witness :
    multiAppend [⟨[97], [1], 3⟩] ++ multiAppend [⟨[97], [2], 4⟩]
      = multiAppend ([⟨[97], [1], 3⟩] ++ [⟨[97], [2], 4⟩]) ∧
    ∃ j : Journey,
      Journey.load ⟨"C", []⟩
          (setFs (fun _ => []) "C"
            (multiAppend [⟨[97], [1], 3⟩] ++ multiAppend [⟨[97], [2], 4⟩]))
          0 (2 ^ 64) 3
        = some (j, true) ∧
      ∀ n : List Nat,
        ((findName n j.toc).isSome ↔
          (findName n (⟨"A", [([97], ⟨8, 1, 3⟩)]⟩ : Journey).toc).isSome ∨
          (findName n (⟨"B", [([97], ⟨8, 1, 4⟩)]⟩ : Journey).toc).isSome) ∧
        ((findName n (⟨"B", [([97], ⟨8, 1, 4⟩)]⟩ : Journey).toc).isSome →
          j.read (setFs (fun _ => []) "C"
            (multiAppend [⟨[97], [1], 3⟩] ++ multiAppend [⟨[97], [2], 4⟩])) n
          = Journey.read ⟨"B", [([97], ⟨8, 1, 4⟩)]⟩
              (setFs (fun _ => []) "B" (multiAppend [⟨[97], [2], 4⟩])) n) ∧
        (findName n (⟨"B", [([97], ⟨8, 1, 4⟩)]⟩ : Journey).toc = none →
          findName n j.toc = findName n (⟨"A", [([97], ⟨8, 1, 3⟩)]⟩ : Journey).toc ∧
          ((findName n (⟨"A", [([97], ⟨8, 1, 3⟩)]⟩ : Journey).toc).isSome →
            j.read (setFs (fun _ => []) "C"
              (multiAppend [⟨[97], [1], 3⟩] ++ multiAppend [⟨[97], [2], 4⟩])) n
            = Journey.read ⟨"A", [([97], ⟨8, 1, 3⟩)]⟩
                (setFs (fun _ => []) "A" (multiAppend [⟨[97], [1], 3⟩])) n)) :=
  c5_concat "C" "A" "B"
    (setFs (fun _ => []) "C"
      (multiAppend [⟨[97], [1], 3⟩] ++ multiAppend [⟨[97], [2], 4⟩]))
    (setFs (fun _ => []) "A" (multiAppend [⟨[97], [1], 3⟩]))
    (setFs (fun _ => []) "B" (multiAppend [⟨[97], [2], 4⟩]))
    [⟨[97], [1], 3⟩] [⟨[97], [2], 4⟩]
    ⟨"A", [([97], ⟨8, 1, 3⟩)]⟩ ⟨"B", [([97], ⟨8, 1, 4⟩)]⟩
    (by decide) (by decide) (by simp [setFs]) (by simp [setFs]) (by simp [setFs])
    (by decide) (by decide) (by decide) (by decide) (by decide)

/-- Witness for C6 at concrete inputs: an 8-byte zero block prepended to
a one-entry archive. -/
theorem c6_foreign_prefix_witness :
    Journey.load ⟨"W", []⟩
        (setFs (fun _ => []) "W" (zeros 8 ++ multiAppend [⟨[97], [98], 1⟩]))
        0 (2 ^ 64) 2
      = some (⟨"W", shiftToc (zeros 8).length
          (⟨"A", [([97], ⟨8, 1, 1⟩)]⟩ : Journey).toc⟩, true) ∧
    ∀ n : List Nat,
      findName n (shiftToc (zeros 8).length
          (⟨"A", [([97], ⟨8, 1, 1⟩)]⟩ : Journey).toc)
        = (findName n (⟨"A", [([97], ⟨8, 1, 1⟩)]⟩ : Journey).toc).map
            (fun ent => ⟨(zeros 8).length + ent.offset, ent.size, ent.stamp⟩) ∧
      Journey.read ⟨"W", shiftToc (zeros 8).length
          (⟨"A", [([97], ⟨8, 1, 1⟩)]⟩ : Journey).toc⟩
          (setFs (fun _ => []) "W" (zeros 8 ++ multiAppend [⟨[97], [98], 1⟩])) n
        = Journey.read ⟨"A", [([97], ⟨8, 1, 1⟩)]⟩
            (setFs (fun _ => []) "A" (multiAppend [⟨[97], [98], 1⟩])) n :=
  c6_foreign_prefix "W" "A"
    (setFs (fun _ => []) "W" (zeros 8 ++ multiAppend [⟨[97], [98], 1⟩]))
    (setFs (fun _ => []) "A" (multiAppend [⟨[97], [98], 1⟩]))
    (zeros 8) [⟨[97], [98], 1⟩] ⟨"A", [([97], ⟨8, 1, 1⟩)]⟩
    (by decide) (by decide) (by simp [setFs]) (by simp [setFs]) (by decide)
    (by decide) (fun h => absurd h (by decide)) (by decide)


/-! ## Toc membership and key uniqueness -/

/-- Names present in a toc, in order. -/
def tocKeys (toc : Toc) : List (List Nat) := toc.map Prod.fst

theorem findName_eq_none_iff (n : List Nat) :
    ∀ toc : Toc, findName n toc = none ↔ n ∉ tocKeys toc := by
  intro toc
  induction toc with
  | nil => simp [findName, tocKeys]
  | cons p rest ih =>
    obtain ⟨m, ent⟩ := p
    simp only [findName]
    by_cases hm : m = n
    · subst hm
      simp [tocKeys]
    · rw [if_neg hm, ih]
      simp only [tocKeys, List.map_cons, List.mem_cons, not_or]
      constructor
      · intro h
        exact ⟨fun he => hm he.symm, h⟩
      · intro h
        exact h.2

theorem findName_isSome_iff (n : List Nat) (toc : Toc) :
    (findName n toc).isSome = true ↔ n ∈ tocKeys toc := by
  have h := findName_eq_none_iff n toc
  cases hx : findName n toc with
  | none => simpa [hx] using h
  | some ent =>
    rw [hx] at h
    simp only [Option.isSome_some, true_iff]
    by_contra hc
    exact absurd (h.mpr hc) (by simp)

theorem findName_mem {n : List Nat} {ent : Entry} :
    ∀ {toc : Toc}, findName n toc = some ent → (n, ent) ∈ toc := by
  intro toc
  induction toc with
  | nil => intro h; simp [findName] at h
  | cons p rest ih =>
    obtain ⟨m, x⟩ := p
    intro h
    simp only [findName] at h
    split_ifs at h with hm
    · subst hm
      rw [Option.some.inj h]
      exact List.mem_cons_self _ _
    · exact List.mem_cons_of_mem _ (ih h)

theorem findName_of_mem_nodup :
    ∀ {toc : Toc}, (tocKeys toc).Nodup →
      ∀ {n : List Nat} {ent : Entry}, (n, ent) ∈ toc → findName n toc = some ent := by
  intro toc
  induction toc with
  | nil => intro _ n ent h; simp at h
  | cons p rest ih =>
    obtain ⟨m, x⟩ := p
    intro hnd n ent hm
    have hnd' : (tocKeys rest).Nodup := (List.nodup_cons.mp hnd).2
    rcases List.mem_cons.mp hm with he | hr
    · obtain ⟨h1, h2⟩ := Prod.mk.inj he.symm
      subst h1 h2
      simp [findName]
    · have hne : m ≠ n := by
        intro he
        subst he
        exact (List.nodup_cons.mp hnd).1
          (List.mem_map.mpr ⟨(m, ent), hr, rfl⟩)
      simp only [findName, if_neg hne]
      exact ih hnd' hr

theorem insertStep_nodupKeys {beg e base : Nat} {t : Triple} {toc : Toc}
    (h : (tocKeys toc).Nodup) :
    (tocKeys (insertStep beg e base t toc)).Nodup := by
  unfold insertStep
  split_ifs with hc
  · refine List.nodup_cons.mpr ⟨?_, h⟩
    intro hmem
    rw [Option.isNone_iff_eq_none] at hc
    exact ((findName_eq_none_iff t.name toc).mp hc.2.2) hmem
  · exact h

theorem scanToc_nodupKeys (beg e : Nat) (ts : List Triple) :
    ∀ (base : Nat) (toc : Toc), (tocKeys toc).Nodup →
      (tocKeys (scanToc beg e base ts toc)).Nodup := by
  induction ts with
  | nil => intro base toc h; exact h
  | cons t rest ih =>
    intro base toc h
    exact insertStep_nodupKeys (ih _ _ h)

theorem scanToc_ne_nil (ts : List Triple) (hts : ts ≠ [])
    (hst : ∀ t ∈ ts, t.stamp < 2 ^ 64) :
    ∀ base : Nat, scanToc 0 (2 ^ 64) base ts [] ≠ [] := by
  cases ts with
  | nil => exact absurd rfl hts
  | cons t rest =>
    intro base
    simp only [scanToc]
    cases hX : scanToc 0 (2 ^ 64) (base + entryLen base t) rest [] with
    | nil =>
      unfold insertStep
      rw [if_pos ⟨Nat.zero_le _,
        le_of_lt (hst t (List.mem_cons_self t rest)), rfl⟩]
      simp
    | cons p l =>
      unfold insertStep
      split_ifs
      · simp
      · simp [hX]

theorem winner_none_of_not_mem (beg e : Nat) (n : List Nat) :
    ∀ (ts : List Triple) (base : Nat), n ∉ ts.map Triple.name →
      winner beg e n base ts = none := by
  intro ts
  induction ts with
  | nil => intro base _; rfl
  | cons t rest ih =>
    intro base hn
    simp only [List.map_cons, List.mem_cons] at hn
    push_neg at hn
    simp only [winner, ih _ hn.2]
    rw [if_neg (by intro hc; exact hn.1 hc.1.symm)]

theorem winner_nodup (beg e : Nat) (ts : List Triple)
    (hnd : (ts.map Triple.name).Nodup) :
    ∀ (base : Nat) (n : List Nat) (t : Triple), t ∈ ts → t.name = n →
      beg ≤ t.stamp → t.stamp ≤ e →
      ∃ b, winner beg e n base ts = some (t, b) := by
  induction ts with
  | nil => intro base n t h; simp at h
  | cons s rest ih =>
    intro base n t hmem hn h1 h2
    have hnd' : (rest.map Triple.name).Nodup := (List.nodup_cons.mp hnd).2
    rcases List.mem_cons.mp hmem with rfl | hr
    · have hnone : winner beg e n (base + entryLen base t) rest = none := by
        apply winner_none_of_not_mem
        rw [← hn]
        exact (List.nodup_cons.mp hnd).1
      refine ⟨base, ?_⟩
      simp only [winner, hnone]
      rw [if_pos ⟨hn, h1, h2⟩]
    · obtain ⟨b, hb⟩ := ih hnd' (base + entryLen base s) n t hr hn h1 h2
      refine ⟨b, ?_⟩
      simp only [winner, hb]

theorem read_congr {j : Journey} {fs fs' : Fs}
    (h : fs j.journal = fs' j.journal) (n : List Nat) :
    j.read fs n = j.read fs' n := by
  rw [Journey.read, Journey.read, h]

theorem compactLoop_spec (j : Journey) (w2 : String) (hw2 : w2 ≠ "")
    (hne : w2 ≠ j.journal) :
    ∀ (L : List (List Nat × Entry)) (fs : Fs),
      (∀ p ∈ L, p.1 ≠ [] ∧ (j.read fs p.1).isSome = true) →
      (compactLoop j ⟨w2, []⟩ fs L).2 = true ∧
      (compactLoop j ⟨w2, []⟩ fs L).1 w2
        = multiAppendFrom (fs w2)
            (L.map (fun p => ⟨p.1, (j.read fs p.1).getD [], p.2.stamp⟩)) ∧
      ∀ q : String, q ≠ w2 → (compactLoop j ⟨w2, []⟩ fs L).1 q = fs q := by
  intro L
  induction L with
  | nil =>
    intro fs _
    exact ⟨rfl, rfl, fun q _ => rfl⟩
  | cons p rest ih =>
    obtain ⟨name, info⟩ := p
    intro fs hp
    obtain ⟨hname, hsome⟩ := hp (name, info) (List.mem_cons_self _ _)
    obtain ⟨data, hdata⟩ := Option.isSome_iff_exists.mp hsome
    have happ : Journey.append ⟨w2, []⟩ fs name (some data) info.stamp
        = (setFs fs w2 (appendBytes (fs w2) ⟨name, data, info.stamp⟩), true) := by
      rw [Journey.append, if_pos ⟨hw2, hname⟩]
    have hcl : compactLoop j ⟨w2, []⟩ fs ((name, info) :: rest)
        = compactLoop j ⟨w2, []⟩
            (setFs fs w2 (appendBytes (fs w2) ⟨name, data, info.stamp⟩)) rest := by
      rw [compactLoop, hdata]
      simp only [happ]
      simp
    set fs' := setFs fs w2 (appendBytes (fs w2) ⟨name, data, info.stamp⟩) with hfs'
    have hagree : fs j.journal = fs' j.journal := by
      rw [hfs', setFs, if_neg (Ne.symm hne)]
    have hrest : ∀ p ∈ rest, p.1 ≠ [] ∧ (j.read fs' p.1).isSome = true := by
      intro p hpm
      obtain ⟨h1, h2⟩ := hp p (List.mem_cons_of_mem _ hpm)
      exact ⟨h1, by rw [← read_congr hagree]; exact h2⟩
    obtain ⟨ih1, ih2, ih3⟩ := ih fs' hrest
    refine ⟨by rw [hcl]; exact ih1, ?_, ?_⟩
    · rw [hcl, ih2]
      have hmap : rest.map (fun p => (⟨p.1, (j.read fs' p.1).getD [], p.2.stamp⟩ : Triple))
          = rest.map (fun p => ⟨p.1, (j.read fs p.1).getD [], p.2.stamp⟩) := by
        apply List.map_congr_left
        intro p _
        rw [read_congr hagree]
      rw [hmap]
      have hw2c : fs' w2 = appendBytes (fs w2) ⟨name, data, info.stamp⟩ := by
        rw [hfs', setFs, if_pos rfl]
      rw [hw2c]
      rw [List.map_cons, multiAppendFrom_cons]
      rw [hdata]
      rfl
    · intro q hq
      rw [hcl, ih3 q hq, hfs', setFs, if_neg hq]

/-- C4.  Compaction round-trip: load an archive of appended records with
the full window, compact it to a fresh path, and load the result: the
new toc has exactly the same names; for each name the stamp is the one
recorded before compaction and `read` returns the same payload bytes. -/
theorem c4_compact (w w2 : String) (fs : Fs) (ts : List Triple) (j1 : Journey)
    (hw2 : w2 ≠ "") (hne : w2 ≠ w)
    (hts : ts ≠ [])
    (hname : ∀ t ∈ ts, t.name ≠ [])
    (hst : ∀ t ∈ ts, t.stamp < 2 ^ 64)
    (hfs : fs w = multiAppend ts)
    (hfresh : fs w2 = [])
    (hlenA : (multiAppend ts).length < 2 ^ 63)
    (hload1 : Journey.load ⟨w, []⟩ fs 0 (2 ^ 64) (ts.length + 1) = some (j1, true))
    (hlenA2 : ((j1.compact fs w2).1 w2).length < 2 ^ 63) :
    (j1.compact fs w2).2 = true ∧
    ∃ j2 : Journey,
      Journey.load ⟨w2, []⟩ (j1.compact fs w2).1 0 (2 ^ 64)
          ((sortToc j1.toc).length + 1) = some (j2, true) ∧
      (∀ n : List Nat, (findName n j2.toc).isSome ↔ (findName n j1.toc).isSome) ∧
      (∀ n ent1 ent2, findName n j1.toc = some ent1 →
        findName n j2.toc = some ent2 → ent2.stamp = ent1.stamp) ∧
      (∀ n : List Nat, (findName n j1.toc).isSome = true →
        j2.read (j1.compact fs w2).1 n = j1.read fs n) := by
  have hA := load_multiAppend w [] fs 0 (2 ^ 64) ts hfs hlenA hst (by norm_num)
  have hj1 : j1 = ⟨w, scanToc 0 (2 ^ 64) 0 ts []⟩ :=
    (((Prod.mk.injEq _ _ _ _).mp (Option.some.inj (hA.symm.trans hload1))).1).symm
  subst hj1
  set T1 := scanToc 0 (2 ^ 64) 0 ts [] with hT1def
  have hndT1 : (tocKeys T1).Nodup := scanToc_nodupKeys 0 (2 ^ 64) ts 0 [] (by simp [tocKeys])
  have hT1ne : T1 ≠ [] := scanToc_ne_nil ts hts hst 0
  -- per-key characterization of the loaded toc
  have hprop : ∀ p ∈ T1, ∃ t b, winner 0 (2 ^ 64) p.1 0 ts = some (t, b) ∧
      t ∈ ts ∧ t.name = p.1 ∧ p.2.stamp = t.stamp ∧
      Journey.read ⟨w, T1⟩ fs p.1 = some t.data := by
    intro p hp
    have hfind := findName_of_mem_nodup hndT1 (show (p.1, p.2) ∈ T1 from hp)
    rw [hT1def, findName_scanToc 0 (2 ^ 64) ts 0 [] p.1 rfl] at hfind
    cases hwn : winner 0 (2 ^ 64) p.1 0 ts with
    | none => rw [hwn] at hfind; simp at hfind
    | some r =>
      obtain ⟨t, b⟩ := r
      rw [hwn] at hfind
      simp only [Option.map_some', Option.some.injEq] at hfind
      obtain ⟨hmem, hnm, h1, h2⟩ := winner_mem 0 (2 ^ 64) p.1 ts 0 t b hwn
      refine ⟨t, b, rfl, hmem, hnm, ?_, ?_⟩
      · rw [← hfind]
      · exact read_of_winner w fs ts 0 (2 ^ 64) p.1 t b hfs hwn
  -- compact unfolds to the loop over the sorted toc
  have hcompact : Journey.compact ⟨w, T1⟩ fs w2
      = compactLoop ⟨w, T1⟩ ⟨w2, []⟩ fs (sortToc T1) := by
    rw [Journey.compact, if_neg hT1ne]
  have hperm : List.Perm (sortToc T1) T1 := List.perm_insertionSort _ T1
  have hLhyp : ∀ p ∈ sortToc T1, p.1 ≠ [] ∧
      (Journey.read ⟨w, T1⟩ fs p.1).isSome = true := by
    intro p hp
    obtain ⟨t, b, _, hmem, hnm, _, hread⟩ := hprop p (hperm.mem_iff.mp hp)
    refine ⟨?_, by rw [hread]; rfl⟩
    rw [← hnm]
    exact hname t hmem
  obtain ⟨hok, hw2c, hother⟩ := compactLoop_spec ⟨w, T1⟩ w2 hw2
    (show w2 ≠ (⟨w, T1⟩ : Journey).journal from hne) (sortToc T1) fs hLhyp
  set ts2 := (sortToc T1).map
    (fun p => (⟨p.1, (Journey.read ⟨w, T1⟩ fs p.1).getD [], p.2.stamp⟩ : Triple))
    with hts2def
  have hA2 : (Journey.compact ⟨w, T1⟩ fs w2).1 w2 = multiAppend ts2 := by
    rw [hcompact, hw2c, hfresh]
    rfl
  have hts2names : ts2.map Triple.name = tocKeys (sortToc T1) := by
    rw [hts2def]
    simp only [List.map_map, tocKeys]
    rfl
  have hnd2 : (ts2.map Triple.name).Nodup := by
    rw [hts2names]
    exact ((hperm.map Prod.fst).nodup_iff).mpr hndT1
  have hst2 : ∀ t ∈ ts2, t.stamp < 2 ^ 64 := by
    intro t ht
    rw [hts2def] at ht
    obtain ⟨p, hp, rfl⟩ := List.mem_map.mp ht
    obtain ⟨t', b, _, hmem', _, hstamp, _⟩ := hprop p (hperm.mem_iff.mp hp)
    simpa [hstamp] using hst t' hmem'
  have hlen2 : (multiAppend ts2).length < 2 ^ 63 := by
    rw [← hA2]
    exact hlenA2
  have hB := load_multiAppend w2 [] (Journey.compact ⟨w, T1⟩ fs w2).1 0 (2 ^ 64) ts2
    hA2 hlen2 hst2 (by norm_num)
  have hfuel : (sortToc T1).length + 1 = ts2.length + 1 := by
    rw [hts2def, List.length_map]
  have hpos2 : 0 < ts2.length := by
    rw [hts2def, List.length_map, hperm.length_eq]
    exact List.length_pos.mpr hT1ne
  -- forward transfer of a toc record through compaction
  have hkey2 : ∀ (n : List Nat) (ent : Entry), findName n T1 = some ent →
      ∃ b2, winner 0 (2 ^ 64) n 0 ts2
          = some (⟨n, (Journey.read ⟨w, T1⟩ fs n).getD [], ent.stamp⟩, b2) ∧
        findName n (scanToc 0 (2 ^ 64) 0 ts2 [])
          = some ⟨payloadOff b2 ⟨n, (Journey.read ⟨w, T1⟩ fs n).getD [], ent.stamp⟩,
              ((Journey.read ⟨w, T1⟩ fs n).getD []).length, ent.stamp⟩ := by
    intro n ent hfind
    have hmemT1 : (n, ent) ∈ T1 := findName_mem hfind
    have hmemS : (n, ent) ∈ sortToc T1 := hperm.mem_iff.mpr hmemT1
    have hmem2 : (⟨n, (Journey.read ⟨w, T1⟩ fs n).getD [], ent.stamp⟩ : Triple) ∈ ts2 := by
      rw [hts2def]
      exact List.mem_map.mpr ⟨(n, ent), hmemS, rfl⟩
    obtain ⟨t', b, _, hmem', _, hstamp, _⟩ := hprop (n, ent) hmemT1
    obtain ⟨b2, hb2⟩ := winner_nodup 0 (2 ^ 64) ts2 hnd2 0 n
      ⟨n, (Journey.read ⟨w, T1⟩ fs n).getD [], ent.stamp⟩ hmem2 rfl
      (Nat.zero_le _)
      (le_of_lt (by rw [show ent.stamp = t'.stamp from hstamp]; exact hst t' hmem'))
    refine ⟨b2, hb2, ?_⟩
    rw [findName_scanToc 0 (2 ^ 64) ts2 0 [] n rfl, hb2]
    rfl
  refine ⟨by rw [hcompact]; exact hok,
    ⟨w2, scanToc 0 (2 ^ 64) 0 ts2 []⟩, ?_, ?_, ?_, ?_⟩
  · rw [hfuel, hB, decide_eq_true hpos2]
  · intro n
    constructor
    · intro hs
      rw [show (⟨w2, scanToc 0 (2 ^ 64) 0 ts2 []⟩ : Journey).toc
          = scanToc 0 (2 ^ 64) 0 ts2 [] from rfl,
        findName_scanToc 0 (2 ^ 64) ts2 0 [] n rfl] at hs
      cases hwn : winner 0 (2 ^ 64) n 0 ts2 with
      | none => rw [hwn] at hs; simp at hs
      | some r =>
        obtain ⟨tri, b⟩ := r
        obtain ⟨hmem2, hnm, -, -⟩ := winner_mem 0 (2 ^ 64) n ts2 0 tri b hwn
        have hkn : n ∈ tocKeys T1 := by
          have h1 : n ∈ ts2.map Triple.name := List.mem_map.mpr ⟨tri, hmem2, hnm⟩
          rw [hts2names] at h1
          exact ((hperm.map Prod.fst).mem_iff).mp h1
        exact (findName_isSome_iff n T1).mpr hkn
    · intro hs
      obtain ⟨ent, hent⟩ := Option.isSome_iff_exists.mp hs
      obtain ⟨b2, -, hfind2⟩ := hkey2 n ent hent
      rw [show (⟨w2, scanToc 0 (2 ^ 64) 0 ts2 []⟩ : Journey).toc
          = scanToc 0 (2 ^ 64) 0 ts2 [] from rfl, hfind2]
      rfl
  · intro n ent1 ent2 h1 h2
    obtain ⟨b2, -, hfind2⟩ := hkey2 n ent1 h1
    rw [show (⟨w2, scanToc 0 (2 ^ 64) 0 ts2 []⟩ : Journey).toc
        = scanToc 0 (2 ^ 64) 0 ts2 [] from rfl, hfind2] at h2
    rw [← Option.some.inj h2]
  · intro n hs
    obtain ⟨ent, hent⟩ := Option.isSome_iff_exists.mp hs
    obtain ⟨b2, hb2, -⟩ := hkey2 n ent hent
    rw [read_of_winner w2 (Journey.compact ⟨w, T1⟩ fs w2).1 ts2 0 (2 ^ 64) n
      ⟨n, (Journey.read ⟨w, T1⟩ fs n).getD [], ent.stamp⟩ b2 hA2 hb2]
    obtain ⟨t', b, -, -, -, -, hread⟩ := hprop (n, ent) (findName_mem hent)
    rw [hread]
    rfl

/-- Witness for C4 at a concrete input: an archive with two revisions of
name `[97]`, compacted to a fresh path. -/
theorem c4_compact_witness :
    ((⟨"S", [([97], ⟨64, 1, 4⟩)]⟩ : Journey).compact
        (setFs (fun _ => []) "S" (multiAppend [⟨[97], [1], 3⟩, ⟨[97], [2], 4⟩]))
        "D").2 = true ∧
    ∃ j2 : Journey,
      Journey.load ⟨"D", []⟩
          ((⟨"S", [([97], ⟨64, 1, 4⟩)]⟩ : Journey).compact
            (setFs (fun _ => []) "S" (multiAppend [⟨[97], [1], 3⟩, ⟨[97], [2], 4⟩]))
            "D").1 0 (2 ^ 64)
          ((sortToc (⟨"S", [([97], ⟨64, 1, 4⟩)]⟩ : Journey).toc).length + 1)
        = some (j2, true) ∧
      (∀ n : List Nat, (findName n j2.toc).isSome ↔
        (findName n (⟨"S", [([97], ⟨64, 1, 4⟩)]⟩ : Journey).toc).isSome) ∧
      (∀ n ent1 ent2,
        findName n (⟨"S", [([97], ⟨64, 1, 4⟩)]⟩ : Journey).toc = some ent1 →
        findName n j2.toc = some ent2 → ent2.stamp = ent1.stamp) ∧
      (∀ n : List Nat,
        (findName n (⟨"S", [([97], ⟨64, 1, 4⟩)]⟩ : Journey).toc).isSome = true →
        j2.read ((⟨"S", [([97], ⟨64, 1, 4⟩)]⟩ : Journey).compact
            (setFs (fun _ => []) "S" (multiAppend [⟨[97], [1], 3⟩, ⟨[97], [2], 4⟩]))
            "D").1 n
          = Journey.read ⟨"S", [([97], ⟨64, 1, 4⟩)]⟩
              (setFs (fun _ => []) "S"
                (multiAppend [⟨[97], [1], 3⟩, ⟨[97], [2], 4⟩])) n) :=
  c4_compact "S" "D"
    (setFs (fun _ => []) "S" (multiAppend [⟨[97], [1], 3⟩, ⟨[97], [2], 4⟩]))
    [⟨[97], [1], 3⟩, ⟨[97], [2], 4⟩] ⟨"S", [([97], ⟨64, 1, 4⟩)]⟩
    (by decide) (by decide) (by decide) (by decide) (by decide)
    (by simp [setFs]) (by decide) (by decide) (by decide) (by decide)
